import Mathlib

/-!
Verification of the fuzzy rule-based control engine of `fcontrol.py`
(class `FController`, class `Behavior`, class `FEval`, the membership-function
builders) and of the behavior-selecting `Controller` of `Lab5-TFC/controller.py`.

The Python code is shallowly embedded:
* Python dicts become association lists (`PyDict`), keeping Python's
  insertion-order iteration and its update-in-place-or-append assignment
  semantics.
* numbers become rationals (`ℚ`),
* raised exceptions (`KeyError`, `IndexError`, `LookupError`, `AssertionError`)
  become an `Except PyErr` result,
* `print` output becomes a list of trace events (`Ev`), emitted under the same
  `debug`-level guards as in the source.
-/

/-- Python exception classes that the modelled code can raise. -/
inductive PyErr where
  /-- `KeyError` from a missing dict key. -/
  | keyError (key : String)
  /-- `IndexError` (e.g. `pop from an empty deque`). -/
  | indexError (msg : String)
  /-- `LookupError`, raised explicitly by `FEval.eval_pred`. -/
  | lookupError (msg : String)
  /-- `AssertionError`, raised by the `assert` in `FEval.eval`. -/
  | assertError (msg : String)
deriving DecidableEq, Repr

deriving instance DecidableEq for Except

/-- A Python dict with `String` keys: an association list in insertion order. -/
abbrev PyDict (α : Type) := List (String × α)

/-- Lookup, `d.get(key)`: the value at the first matching key, if any. -/
def dget {α : Type} : PyDict α → String → Option α
  | [], _ => none
  | (k, v) :: d, key => if k = key then some v else dget d key

/-- Lookup `d[key]`, raising `KeyError` when the key is absent. -/
def dgetE {α : Type} (d : PyDict α) (key : String) : Except PyErr α :=
  match dget d key with
  | none => .error (.keyError key)
  | some v => .ok v

/-- Assignment `d[key] = val`: update in place if the key is present,
append otherwise (Python dict semantics, preserving iteration order). -/
def dset {α : Type} : PyDict α → String → α → PyDict α
  | [], key, val => [(key, val)]
  | (k, v) :: d, key, val =>
      if k = key then (k, val) :: d else (k, v) :: dset d key val

/-- The keys of the dict, in iteration order. -/
def dkeys {α : Type} (d : PyDict α) : List String := d.map Prod.fst

@[simp] theorem dget_nil {α : Type} (key : String) :
    dget ([] : PyDict α) key = none := rfl

@[simp] theorem dget_cons {α : Type} (k : String) (v : α) (d : PyDict α) (key : String) :
    dget ((k, v) :: d) key = if k = key then some v else dget d key := rfl

theorem dget_dset_self {α : Type} (d : PyDict α) (key : String) (val : α) :
    dget (dset d key val) key = some val := by
  induction d with
  | nil => simp [dset]
  | cons kv d ih =>
      obtain ⟨k, v⟩ := kv
      by_cases h : k = key
      · simp [dset, h]
      · simp [dset, h, ih]

theorem dget_dset_ne {α : Type} (d : PyDict α) (key key' : String) (val : α)
    (h : key' ≠ key) : dget (dset d key val) key' = dget d key' := by
  induction d with
  | nil =>
      show (if key = key' then some val else none) = none
      rw [if_neg (fun h' => h h'.symm)]
  | cons kv d ih =>
      obtain ⟨k, v⟩ := kv
      by_cases hk : k = key
      · have hd : dset ((k, v) :: d) key val = (k, val) :: d := by
          simp [dset, hk]
        rw [hd, dget_cons, dget_cons,
          if_neg (fun h' : k = key' => h (h'.symm.trans hk)),
          if_neg (fun h' : k = key' => h (h'.symm.trans hk))]
      · have hd : dset ((k, v) :: d) key val = (k, v) :: dset d key val := by
          simp [dset, hk]
        rw [hd, dget_cons, dget_cons, ih]

theorem dget_dset {α : Type} (d : PyDict α) (key key' : String) (val : α) :
    dget (dset d key val) key' =
      if key' = key then some val else dget d key' := by
  by_cases h : key' = key
  · subst h; simp [dget_dset_self]
  · simp [h, dget_dset_ne _ _ _ _ h]

theorem dkeys_dset_of_mem {α : Type} (d : PyDict α) (key : String) (val : α)
    (h : key ∈ dkeys d) : dkeys (dset d key val) = dkeys d := by
  induction d with
  | nil => simp [dkeys] at h
  | cons kv d ih =>
      obtain ⟨k, v⟩ := kv
      by_cases hk : k = key
      · simp [dset, hk, dkeys]
      · simp only [dkeys, List.map_cons, List.mem_cons] at h
        rcases h with h | h
        · exact absurd h.symm hk
        · simpa [dset, hk, dkeys] using ih h

theorem mem_dkeys_of_dget {α : Type} {d : PyDict α} {key : String} {v : α}
    (h : dget d key = some v) : key ∈ dkeys d := by
  induction d with
  | nil => simp at h
  | cons kv d ih =>
      obtain ⟨k, v'⟩ := kv
      by_cases hk : k = key
      · simp [dkeys, hk]
      · simp only [dget_cons, if_neg hk] at h
        simp only [dkeys, List.map_cons, List.mem_cons]
        exact Or.inr (ih h)

theorem dget_isSome_of_mem_dkeys {α : Type} {d : PyDict α} {key : String}
    (h : key ∈ dkeys d) : (dget d key).isSome := by
  induction d with
  | nil => simp [dkeys] at h
  | cons kv d ih =>
      obtain ⟨k, v⟩ := kv
      by_cases hk : k = key
      · simp [hk]
      · simp only [dkeys, List.map_cons, List.mem_cons] at h
        rcases h with h | h
        · exact absurd h.symm hk
        · simp [hk, ih h]

/-- Two updates at distinct keys commute when the first key is already
present (the only failing case would be appending two fresh keys). -/
theorem dset_dset_of_ne {α : Type} (d : PyDict α) (k1 k2 : String) (v1 v2 : α)
    (hne : k1 ≠ k2) (h1 : k1 ∈ dkeys d) :
    dset (dset d k1 v1) k2 v2 = dset (dset d k2 v2) k1 v1 := by
  induction d with
  | nil => simp [dkeys] at h1
  | cons kv d ih =>
      obtain ⟨k, v⟩ := kv
      by_cases hk1 : k = k1
      · subst hk1
        simp [dset, if_neg hne, if_pos rfl]
      · by_cases hk2 : k = k2
        · subst hk2
          simp only [dset, if_neg hk1, if_pos rfl]
          simp [dset, if_neg hk1]
        · simp only [dkeys, List.map_cons, List.mem_cons] at h1
          rcases h1 with h1 | h1
          · exact absurd h1.symm hk1
          · simp [dset, hk1, hk2, ih h1]

/-- Re-updating the same key overwrites the earlier update. -/
theorem dset_dset_self {α : Type} (d : PyDict α) (k : String) (v1 v2 : α) :
    dset (dset d k v1) k v2 = dset d k v2 := by
  induction d with
  | nil => simp [dset]
  | cons kv d ih =>
      obtain ⟨k', v⟩ := kv
      by_cases hk : k' = k
      · simp [dset, hk]
      · simp [dset, hk, ih]

/-- Trace events standing for the `print` calls of the Python source.  They are
emitted under the same `debug`-level guards as in the source and carry the data
that the source would format; their exact rendering is not modelled. -/
inductive Ev where
  /-- `FController.print_state`, called from `run` when `debug > 0`. -/
  | printState
  /-- Header line of `FController.print_fpreds`. -/
  | fpredsHeader
  /-- One line of `FController.print_fpreds` (it re-evaluates the predicate). -/
  | fpredVal (name : String) (v : ℚ)
  /-- The `print('Rules:')` line of `eval_frules`. -/
  | rulesHeader
  /-- The per-rule line of `eval_frule` when `debug > 0`. -/
  | ruleFired (name : String) (level : ℚ)
  /-- The `defuzzify:` diagnostic of `defuzzify_var` when `debug > 2`. -/
  | defuzzInfo (cvar : String)
deriving DecidableEq, Repr

/-! ## The `FEval` statement evaluator

`FEval` tokenizes a statement string by surrounding parentheses with spaces and
splitting on whitespace, then runs a recursive-descent parser over the token
deque.  The parser functions return `None` on a syntax failure (turned into an
`AssertionError` by `eval`), raise `LookupError` for a predicate missing from
the interpretation, and raise `IndexError` when `parse_atom` pops from an empty
deque.

The `FController` always constructs its evaluator as `FEval()` with `debug = 0`,
so the numeric branches of `eval_pred`/`eval_and`/`eval_or`/`eval_not`/
`eval_paren` are the ones modelled here: the `debug ≠ 0` branches of those
functions build diagnostic strings instead of numbers and are never reached
from the controller.

Recursion in the parser is by structural fuel; `eval` supplies
`3 * (number of tokens) + 3`, which exceeds the deepest possible call chain
(each nesting level of parentheses costs three frames and consumes a token). -/

namespace FEval

/-- Tokenizer of `FEval.eval`:
`stmt.replace('(',' ( ').replace(')',' ) ').split()`. -/
def tokenize (stmt : String) : List String :=
  let expand : List Char → List Char := fun cs =>
    cs.flatMap (fun c => if c = '(' ∨ c = ')' then [' ', c, ' '] else [c])
  let groups := (expand stmt.toList).splitOnP (fun c => c.isWhitespace)
  (groups.map (fun g => String.mk g)).filter (fun t => t ≠ "")

/-- `FEval.is_atom`: every token other than the connectives and parentheses is
an atom.  The argument is an `Option` because `parse_term` applies it to
`self.this()`, which is `None` on an empty deque (and `None` is not in the
keyword list, so it counts as an atom). -/
def is_atom : Option String → Bool
  | none => true
  | some t => ¬ (t = "NOT" ∨ t = "AND" ∨ t = "OR" ∨ t = "(" ∨ t = ")")

/-- `FEval.eval_pred` (numeric mode, `debug = 0`): look the predicate up in the
interpretation, raising `LookupError` when it is absent. -/
def eval_pred (interp : PyDict ℚ) (pred : String) : Except PyErr ℚ :=
  match dget interp pred with
  | none => .error (.lookupError ("No truth value provided for fuzzy predicate: " ++ pred))
  | some v => .ok v

/-- `FEval.eval_and` (numeric mode): fuzzy conjunction is `min`, written out
as the comparison Python's `min` performs so that it evaluates by reduction. -/
def eval_and (lhs rhs : ℚ) : ℚ := if lhs ≤ rhs then lhs else rhs

/-- `FEval.eval_or` (numeric mode): fuzzy disjunction is `max`, written out
as the comparison Python's `max` performs so that it evaluates by reduction. -/
def eval_or (lhs rhs : ℚ) : ℚ := if lhs ≤ rhs then rhs else lhs

theorem eval_and_eq_min (lhs rhs : ℚ) : eval_and lhs rhs = min lhs rhs := by
  rw [eval_and, min_def]

theorem eval_or_eq_max (lhs rhs : ℚ) : eval_or lhs rhs = max lhs rhs := by
  rw [eval_or, max_def]

/-- `FEval.eval_not` (numeric mode): fuzzy negation is `1 - value`. -/
def eval_not (term : ℚ) : ℚ := 1 - term

/-- `FEval.eval_paren` (numeric mode): parenthesization is the identity. -/
def eval_paren (stmt : ℚ) : ℚ := stmt

/-- `FEval.parse_atom`: pop a token (raising `IndexError` on an empty deque,
as `deque.popleft` does); if it is an atom, evaluate it as a predicate,
otherwise fail with `None`. -/
def parse_atom (interp : PyDict ℚ) :
    List String → Except PyErr (Option ℚ × List String)
  | [] => .error (.indexError "pop from an empty deque")
  | t :: ts =>
      if is_atom (some t) then do
        let v ← eval_pred interp t
        pure (some v, ts)
      else
        pure (none, ts)

mutual

/-- `FEval.parse_stmt`: `<stmt> ::= <term> | <term> "AND" <term> | <term> "OR" <term>`.
Note that no check is made that the input is exhausted afterwards: at most one
infix operator is consumed and any remaining tokens are left on the deque. -/
def parse_stmt (interp : PyDict ℚ) :
    Nat → List String → Except PyErr (Option ℚ × List String)
  | 0, input => .ok (none, input)
  | fuel + 1, input => do
      let (lhs?, input) ← parse_term interp fuel input
      match lhs? with
      | none => pure (none, input)
      | some lhs =>
        match input.head? with
        | some "AND" => do
            let (rhs?, input') ← parse_term interp fuel input.tail
            match rhs? with
            | none => pure (none, input')
            | some rhs => pure (some (eval_and lhs rhs), input')
        | some "OR" => do
            let (rhs?, input') ← parse_term interp fuel input.tail
            match rhs? with
            | none => pure (none, input')
            | some rhs => pure (some (eval_or lhs rhs), input')
        | _ => pure (some lhs, input)

/-- `FEval.parse_term`: `<term> ::= <atom> | <encl> | "NOT" <encl>`. -/
def parse_term (interp : PyDict ℚ) :
    Nat → List String → Except PyErr (Option ℚ × List String)
  | 0, input => .ok (none, input)
  | fuel + 1, input =>
      if input.head? = some "NOT" then do
        let (term?, input') ← parse_encl interp fuel input.tail
        match term? with
        | none => pure (none, input')
        | some term => pure (some (eval_not term), input')
      else if is_atom input.head? then
        parse_atom interp input
      else
        parse_encl interp fuel input

/-- `FEval.parse_encl`: `<encl> ::= "(" <stmt> ")"`. -/
def parse_encl (interp : PyDict ℚ) :
    Nat → List String → Except PyErr (Option ℚ × List String)
  | 0, input => .ok (none, input)
  | fuel + 1, input =>
      if input.head? = some "(" then do
        let (expr?, input') ← parse_stmt interp fuel input.tail
        match expr? with
        | none => pure (none, input')
        | some expr =>
          if input'.head? = some ")" then
            pure (some (eval_paren expr), input'.tail)
          else
            pure (none, input')
      else
        pure (none, input)

end

/-- `FEval.eval` on an already tokenized input: run `parse_stmt` and turn a
`None` result into the `AssertionError` raised by the source's `assert`.
The assertion message interpolates the original statement text. -/
def evalTokens (interp : PyDict ℚ) (stmtText : String) (input : List String) :
    Except PyErr ℚ := do
  let (result?, _) ← parse_stmt interp (3 * input.length + 3) input
  match result? with
  | none => .error (.assertError ("Invalid syntax in fuzzy expression: " ++ stmtText))
  | some v => pure v

/-- `FEval.eval`: tokenize the statement and parse it, asserting that a value
was produced. -/
def eval (interp : PyDict ℚ) (stmt : String) : Except PyErr ℚ :=
  evalTokens interp stmt (tokenize stmt)

end FEval

/-! ## Membership-function builders -/

/-- `ramp_up(a, b)` (the returned closure `mu`): zero until `a`, then raise
linearly until `b`, then one.  The source asserts `a <= b` at construction
time; that precondition appears as a hypothesis of the theorems below. -/
def ramp_up (a b : ℚ) : ℚ → ℚ := fun x =>
  if x ≤ a then 0
  else if x > b then 1
  else (x - a) / (b - a)

/-- `ramp_down(a, b)`: one until `a`, then decrease linearly until `b`,
then zero. -/
def ramp_down (a b : ℚ) : ℚ → ℚ := fun x =>
  if x ≤ a then 1
  else if x > b then 0
  else (b - x) / (b - a)

/-- `triangle(a, b, c)`: zero until `a`, raise linearly until `b`, decrease
linearly until `c`, then zero. -/
def triangle (a b c : ℚ) : ℚ → ℚ := fun x =>
  if x ≤ a then 0
  else if x > c then 0
  else if x ≤ b then (x - a) / (b - a)
  else (c - x) / (c - b)

/-- Python's `max(a, b)` written as the comparison it performs, used by
`eval_frule` for rule aggregation. -/
def pymax (a b : ℚ) : ℚ := if a ≤ b then b else a

theorem pymax_eq_max (a b : ℚ) : pymax a b = max a b := by
  rw [pymax, max_def]

/-! ## The rule engine (`FController`) -/

/-- A fuzzy predicate value: `(membership function, input variable name)`. -/
abbrev FPred : Type := (ℚ → ℚ) × String

/-- A linguistic variable value: `({label : crisp value}, target variable)`. -/
abbrev FLVar : Type := PyDict ℚ × String

/-- A fuzzy rule value: `(antecedent, linguistic variable, linguistic value)`. -/
abbrev FRule : Type := String × String × String

/-- An `flsets` entry: `({label : activation}, linguistic variable name)`. -/
abbrev FLSet : Type := PyDict ℚ × String

/-- The state of an `FController`/`Behavior` instance together with the
`FController` class-level dictionaries.

In the source, `state`, `output`, `frules`, `fpreds`, `flvars`, `flsets` and
`fpvals` are all declared as class attributes of `FController`.  The fields
`state`, `output`, `flsets` and `fpvals` are only ever mutated in place
(`self.state[var] = ...` and so on), never rebound, so every instance of every
`Behavior` subclass shares those four dict objects.  The tables `fpreds`,
`flvars`, `frules` and the string `fgoal` are rebound by a subclass's `setup`
(`self.fpreds = {...}`), creating instance attributes; the Lab5 behaviors
`GoTo`/`Cross`/`Open`/`Close` rebind only `fgoal`, leaving the three tables
resolving to the class-level dicts, which no code ever mutates, observably the
same as per-instance empty tables. -/
structure FCtrl where
  state  : PyDict ℚ
  output : PyDict ℚ
  frules : PyDict FRule
  fpreds : PyDict FPred
  flvars : PyDict FLVar
  flsets : PyDict FLSet
  fpvals : PyDict ℚ
  fgoal  : String

namespace FController

/-- The loop body of `init_flsets` for one linguistic variable `nf`:
`flsets[cvar] = ({}, name)` followed by `flsets[cvar][0][label] = 0.0` for
every label, and `output[cvar] = 0.0`. -/
def init_step (c : FCtrl) (nf : String × FLVar) : FCtrl :=
  let name := nf.1
  let flvar := nf.2
  let cvar := flvar.2
  let flset0 := (dkeys flvar.1).foldl (fun d label => dset d label 0) []
  { c with flsets := dset c.flsets cvar (flset0, name),
           output := dset c.output cvar 0 }

/-- `FController.init_flsets`: for every linguistic variable, (re)create the
fuzzy output set of its target variable with all labels at activation `0.0`,
and reset the target variable's crisp output to `0.0`. -/
def init_flsets (c : FCtrl) : FCtrl :=
  c.flvars.foldl init_step c

/-- `FController.init_fpreds`: reset every predicate truth value to `0.0`. -/
def init_fpreds (c : FCtrl) : FCtrl :=
  { c with fpvals := (dkeys c.fpreds).foldl (fun fv pred => dset fv pred 0) c.fpvals }

/-- `FController.eval_fpred`: apply the predicate's membership function to the
current value of its input variable (raising `KeyError` if either the
predicate or the state variable is missing). -/
def eval_fpred (c : FCtrl) (name : String) : Except PyErr ℚ := do
  let fpred ← dgetE c.fpreds name
  let x ← dgetE c.state fpred.2
  pure (fpred.1 x)

/-- The `for pred in self.fpreds` loop of `eval_fpreds`. -/
def eval_fpreds_loop : FCtrl → List String → Except PyErr FCtrl
  | c, [] => .ok c
  | c, pred :: preds => do
    let v ← eval_fpred c pred
    eval_fpreds_loop { c with fpvals := dset c.fpvals pred v } preds

/-- `FController.eval_fpreds`: evaluate every declared predicate and store the
truth value in `fpvals`. -/
def eval_fpreds (c : FCtrl) : Except PyErr FCtrl :=
  eval_fpreds_loop c (dkeys c.fpreds)

/-- The `for pred in self.fpreds` loop of `print_fpreds`; the controller state
is only read, the per-predicate lines are collected in order. -/
def print_fpreds_loop (c : FCtrl) : List String → Except PyErr (List Ev)
  | [] => .ok []
  | pred :: preds => do
    let v ← eval_fpred c pred
    let evs ← print_fpreds_loop c preds
    pure (Ev.fpredVal pred v :: evs)

/-- `FController.print_fpreds`: the debug listing of predicate truth values.
It re-evaluates each predicate with `eval_fpred`, so (like the source) it can
raise `KeyError` when a state variable is missing. -/
def print_fpreds (c : FCtrl) : Except PyErr (List Ev) := do
  let evs ← print_fpreds_loop c (dkeys c.fpreds)
  pure (Ev.fpredsHeader :: evs)

/-- `FController.eval_frule`: evaluate one rule's antecedent against the
current interpretation (`fpvals`, set by `run`) and aggregate the firing level
into the target label with `new = max(old, level)`. -/
def eval_frule (c : FCtrl) (name : String) (debug : ℤ) :
    Except PyErr (FCtrl × List Ev) := do
  let frule ← dgetE c.frules name
  let ante := frule.1
  let flvar ← dgetE c.flvars frule.2.1
  let label := frule.2.2
  let cvar := flvar.2
  let flset ← dgetE c.flsets cvar
  let level ← FEval.eval c.fpvals ante
  let old ← dgetE flset.1 label
  let flset' : FLSet := (dset flset.1 label (pymax old level), flset.2)
  let evs : List Ev := if debug > 0 then [Ev.ruleFired name level] else []
  pure ({ c with flsets := dset c.flsets cvar flset' }, evs)

/-- The `for frule in self.frules` loop body of `eval_frules`, over an
explicit list of rule names. -/
def applyRules (debug : ℤ) : FCtrl → List String → Except PyErr (FCtrl × List Ev)
  | c, [] => .ok (c, [])
  | c, n :: ns => do
    let (c1, e) ← eval_frule c n debug
    let (c2, es) ← applyRules debug c1 ns
    pure (c2, e ++ es)

/-- `FController.eval_frules` with the iteration order made explicit: print
the predicates when `debug > 0`, reset the fuzzy output sets exactly once,
then evaluate the rules in the given order. -/
def eval_frules_with (c : FCtrl) (names : List String) (debug : ℤ) :
    Except PyErr (FCtrl × List Ev) := do
  let evs0 ← if debug > 0 then print_fpreds c else pure ([] : List Ev)
  let c1 := init_flsets c
  let evs1 : List Ev := if debug > 0 then [Ev.rulesHeader] else []
  let (c2, evs2) ← applyRules debug c1 names
  pure (c2, evs0 ++ evs1 ++ evs2)

/-- `FController.eval_frules`: the rules are iterated in dict order. -/
def eval_frules (c : FCtrl) (debug : ℤ) : Except PyErr (FCtrl × List Ev) :=
  eval_frules_with c (dkeys c.frules) debug

/-- `FController.eval_goal`: evaluate the goal statement against the
interpretation set by `run` (namely `fpvals`). -/
def eval_goal (c : FCtrl) : Except PyErr ℚ :=
  FEval.eval c.fpvals c.fgoal

/-- The `for label in vals` summation loop of `defuzzify_var`:
`sumv += mus[label] * vals[label]; sumu += mus[label]`. -/
def defuzz_sums (mus vals : PyDict ℚ) : List String → (ℚ × ℚ) → Except PyErr (ℚ × ℚ)
  | [], sums => .ok sums
  | label :: ls, sums => do
    let mu ← dgetE mus label
    let v ← dgetE vals label
    defuzz_sums mus vals ls (sums.1 + mu * v, sums.2 + mu)

/-- The body of `FController.defuzzify_var`, reading only `flsets` and
`flvars`: weighted-centroid defuzzification
`Σ (activation × value) / Σ activation`, returning `None` when the total
activation is exactly zero. -/
def defuzzify_core (flsets : PyDict FLSet) (flvars : PyDict FLVar)
    (cvar : String) (debug : ℤ) : Except PyErr (Option ℚ × List Ev) := do
  let fls ← dgetE flsets cvar
  let lvar := fls.2
  let flv ← dgetE flvars lvar
  let vals := flv.1
  let mus := fls.1
  let evs : List Ev := if debug > 2 then [Ev.defuzzInfo cvar] else []
  let sums ← defuzz_sums mus vals (dkeys vals) (0, 0)
  if sums.2 = 0 then pure (none, evs) else pure (some (sums.1 / sums.2), evs)

/-- `FController.defuzzify_var`. -/
def defuzzify_var (c : FCtrl) (cvar : String) (debug : ℤ) :
    Except PyErr (Option ℚ × List Ev) :=
  defuzzify_core c.flsets c.flvars cvar debug

/-- The `for cvar in self.output` loop of `defuzzify`, over an explicit list
of output variable names: write the defuzzified value, or keep the dict entry
untouched when `defuzzify_var` returned `None`. -/
def defuzzifyVars (debug : ℤ) : FCtrl → List String → Except PyErr (FCtrl × List Ev)
  | c, [] => .ok (c, [])
  | c, cvar :: cvars => do
    let (val?, e) ← defuzzify_var c cvar debug
    let c1 := match val? with
      | some v => { c with output := dset c.output cvar v }
      | none => c
    let (c2, es) ← defuzzifyVars debug c1 cvars
    pure (c2, e ++ es)

/-- `FController.defuzzify`: defuzzify every output variable. -/
def defuzzify (c : FCtrl) (debug : ℤ) : Except PyErr (FCtrl × List Ev) :=
  defuzzifyVars debug c (dkeys c.output)

/-- `FController.run`: one control cycle.  `upd` is the `Behavior`-specific
`update_state` method (a pure transformer of the `state` dict given the
external state); the interpretation for rule antecedents and the goal is
`fpvals`, as set by `self.fevaluator.set_interpretation(self.fpvals)`. -/
def run (upd : PyDict ℚ → PyDict ℚ → PyDict ℚ) (c : FCtrl) (ext : PyDict ℚ)
    (debug : ℤ) : Except PyErr (ℚ × FCtrl × List Ev) := do
  let c0 : FCtrl := { c with state := upd ext c.state }
  let evs0 : List Ev := if debug > 0 then [Ev.printState] else []
  let c1 ← eval_fpreds c0
  let (c2, evs1) ← eval_frules c1 debug
  let (c3, evs2) ← defuzzify c2 debug
  let v ← eval_goal c3
  pure (v, c3, evs0 ++ evs1 ++ evs2)

/-- `FController.get_output`. -/
def get_output (c : FCtrl) : PyDict ℚ := c.output

end FController

namespace Behavior

/-- `Behavior.get_vlin`: read `output['Vlin']` (raising `KeyError` when the
entry is missing). -/
def get_vlin (c : FCtrl) : Except PyErr ℚ := dgetE c.output "Vlin"

/-- `Behavior.get_vrot`: read `output['Vrot']` and convert degrees to radians.
The conversion `math.radians` multiplies by the irrational `π / 180`, so it is
kept abstract as a parameter `rad`; the `KeyError` on a missing entry is
raised before it is applied. -/
def get_vrot (rad : ℚ → ℚ) (c : FCtrl) : Except PyErr ℚ := do
  let v ← dgetE c.output "Vrot"
  pure (rad v)

end Behavior

/-! ## Behaviors and the Lab5 `Controller` facade -/

/-- The per-instance tables that a `Behavior` subclass's `setup` rebinds. -/
structure BTables where
  fpreds : PyDict FPred
  flvars : PyDict FLVar
  frules : PyDict FRule
  fgoal  : String

namespace Controller

/-- `Controller.set_behavior` of `Lab5-TFC/controller.py`: construct a new
`Behavior` instance by name and replace the previous one.  Constructing the
instance runs `setup`, which rebinds the per-instance tables; the class-level
dicts `state`, `output`, `flsets` and `fpvals` are shared between the old and
the new instance and carry over unchanged. -/
def set_behavior (c : FCtrl) (t : BTables) : FCtrl :=
  { c with fpreds := t.fpreds, flvars := t.flvars, frules := t.frules,
           fgoal := t.fgoal }

end Controller

/-- The `FController` class-level dicts as they are at interpreter start:
all empty, the goal the empty string. -/
def freshCtrl : FCtrl := ⟨[], [], [], [], [], [], [], ""⟩

/-- The tables set up by the Lab3/Lab4 `GoToTarget` behavior (its `setup`
method), with the numeric literals as exact rationals. -/
def GoToTarget.tables : BTables where
  fpreds := [("TargetLeft", (ramp_up 5 60, "phi")),
             ("TargetRight", (ramp_down (-60) (-5), "phi")),
             ("TargetAhead", (triangle (-60) 0 60, "phi")),
             ("TargetHere", (ramp_down (1/10) 2, "rho"))]
  flvars := [("Move", ([("Fast", 1/2), ("Slow", 1/10), ("None", 0), ("Back", -(1/10))], "Vlin")),
             ("Turn", ([("Left", 40), ("MLeft", 10), ("None", 0), ("MRight", -10), ("Right", -40)], "Vrot"))]
  frules := [("ToLeft", ("TargetLeft AND NOT(TargetHere)", "Turn", "Left")),
             ("ToRight", ("TargetRight AND NOT(TargetHere)", "Turn", "Right")),
             ("Far", ("TargetAhead AND NOT(TargetHere)", "Move", "Fast")),
             ("Stop", ("TargetHere", "Move", "None"))]
  fgoal := "TargetHere"

/-- Constructing a `GoToTarget` instance: `Behavior.__init__` calls `setup`,
which rebinds the tables and then calls `init_flsets()` and `init_fpreds()`. -/
def GoToTarget.construct (c : FCtrl) : FCtrl :=
  FController.init_fpreds (FController.init_flsets
    (Controller.set_behavior c GoToTarget.tables))

/-- The tables of the Lab5 behaviors `GoTo`, `Cross`, `Open` and `Close`:
their `setup` declares no predicates, linguistic variables or rules and sets
only `self.fgoal = "True"`. -/
def lab5Tables : BTables := ⟨[], [], [], "True"⟩

/-- Constructing a Lab5 behavior (`GoTo`, `Cross`, `Open` or `Close`):
`setup` only rebinds `fgoal`; no `init_flsets`/`init_fpreds` call. -/
def lab5Construct (c : FCtrl) : FCtrl := Controller.set_behavior c lab5Tables

/-! ## Basic `Except` computation lemmas -/

@[simp] theorem ok_bind {α β : Type} (a : α) (f : α → Except PyErr β) :
    (Except.ok a >>= f) = f a := rfl

@[simp] theorem error_bind {α β : Type} (e : PyErr) (f : α → Except PyErr β) :
    ((Except.error e : Except PyErr α) >>= f) = Except.error e := rfl

@[simp] theorem map_ok {α β : Type} (g : α → β) (a : α) :
    (Except.ok a : Except PyErr α).map g = Except.ok (g a) := rfl

@[simp] theorem map_error {α β : Type} (g : α → β) (e : PyErr) :
    (Except.error e : Except PyErr α).map g = (Except.error e : Except PyErr β) := rfl

@[simp] theorem pure_eq_ok {α : Type} (a : α) :
    (pure a : Except PyErr α) = Except.ok a := rfl

/-! ## C6: membership-function shapes -/

/-- C6: for parameters with `a ≤ b` (and `a ≤ b ≤ c` for `triangle`) the
membership-function builders realize the specified piecewise shapes — `ramp_up`
is 0 for `x ≤ a`, `(x−a)/(b−a)` for `a < x ≤ b` and 1 for `x > b`, with
`ramp_down` and `triangle` analogous — every returned value lies in `[0, 1]`,
every division branch is taken only when its denominator is positive (so the
code never divides by zero), and a degenerate span (`a = b`, resp. `b = c`)
makes the function an immediate step at that boundary. -/
theorem C6_membership_shapes (a b c : ℚ) (hab : a ≤ b) (hbc : b ≤ c) (x : ℚ) :
    (x ≤ a → ramp_up a b x = 0)
    ∧ (a < x → x ≤ b → ramp_up a b x = (x - a) / (b - a) ∧ 0 < b - a)
    ∧ (b < x → ramp_up a b x = 1)
    ∧ (0 ≤ ramp_up a b x ∧ ramp_up a b x ≤ 1)
    ∧ (a = b → ramp_up a b x = if x ≤ a then 0 else 1)
    ∧ (x ≤ a → ramp_down a b x = 1)
    ∧ (a < x → x ≤ b → ramp_down a b x = (b - x) / (b - a) ∧ 0 < b - a)
    ∧ (b < x → ramp_down a b x = 0)
    ∧ (0 ≤ ramp_down a b x ∧ ramp_down a b x ≤ 1)
    ∧ (a = b → ramp_down a b x = if x ≤ a then 1 else 0)
    ∧ (x ≤ a → triangle a b c x = 0)
    ∧ (c < x → triangle a b c x = 0)
    ∧ (a < x → x ≤ b → triangle a b c x = (x - a) / (b - a) ∧ 0 < b - a)
    ∧ (b < x → x ≤ c → triangle a b c x = (c - x) / (c - b) ∧ 0 < c - b)
    ∧ (0 ≤ triangle a b c x ∧ triangle a b c x ≤ 1)
    ∧ (a = b → a < x → x ≤ c → triangle a b c x = (c - x) / (c - b))
    ∧ (b = c → a < x → x ≤ b → triangle a b c x = (x - a) / (b - a)) := by
  refine ⟨?_, ?_, ?_, ?_, ?_, ?_, ?_, ?_, ?_, ?_, ?_, ?_, ?_, ?_, ?_, ?_, ?_⟩
  · intro h; simp [ramp_up, h]
  · intro h1 h2
    have hba : 0 < b - a := by linarith
    constructor
    · simp [ramp_up, not_le.mpr h1, not_lt.mpr h2]
    · exact hba
  · intro h
    have h1 : ¬ x ≤ a := by linarith
    simp [ramp_up, h1, h]
  · unfold ramp_up
    split_ifs with h1 h2
    · norm_num
    · norm_num
    · push_neg at h1 h2
      have hba : 0 < b - a := by linarith
      constructor
      · apply div_nonneg <;> linarith
      · rw [div_le_one hba]; linarith
  · intro h; subst h
    unfold ramp_up
    by_cases h1 : x ≤ a
    · simp [h1]
    · simp [h1, not_le.mp h1]
  · intro h; simp [ramp_down, h]
  · intro h1 h2
    have hba : 0 < b - a := by linarith
    constructor
    · simp [ramp_down, not_le.mpr h1, not_lt.mpr h2]
    · exact hba
  · intro h
    have h1 : ¬ x ≤ a := by linarith
    simp [ramp_down, h1, h]
  · unfold ramp_down
    split_ifs with h1 h2
    · norm_num
    · norm_num
    · push_neg at h1 h2
      have hba : 0 < b - a := by linarith
      constructor
      · apply div_nonneg <;> linarith
      · rw [div_le_one hba]; linarith
  · intro h; subst h
    unfold ramp_down
    by_cases h1 : x ≤ a
    · simp [h1]
    · simp [h1, not_le.mp h1]
  · intro h; simp [triangle, h]
  · intro h
    have h1 : ¬ x ≤ a := by linarith
    simp [triangle, h1, h]
  · intro h1 h2
    have hba : 0 < b - a := by linarith
    have hc : ¬ c < x := by linarith
    refine ⟨?_, hba⟩
    simp [triangle, not_le.mpr h1, not_lt.mp (by linarith : ¬ c < x), h2, hc]
  · intro h1 h2
    have hcb : 0 < c - b := by linarith
    refine ⟨?_, hcb⟩
    have ha : ¬ x ≤ a := by linarith
    have hc : ¬ x > c := by linarith
    have hb : ¬ x ≤ b := by linarith
    simp [triangle, ha, hc, hb]
  · unfold triangle
    split_ifs with h1 h2 h3
    · norm_num
    · norm_num
    · push_neg at h1 h2
      have hba : 0 < b - a := by linarith
      constructor
      · apply div_nonneg <;> linarith
      · rw [div_le_one hba]; linarith
    · push_neg at h1 h2 h3
      have hcb : 0 < c - b := by linarith
      constructor
      · apply div_nonneg <;> linarith
      · rw [div_le_one hcb]; linarith
  · intro h hax hxc
    subst h
    have ha : ¬ x ≤ a := by linarith
    have hc : ¬ x > c := by linarith
    have hb : ¬ x ≤ a := ha
    simp [triangle, ha, hc, hb]
  · intro h hax hxb
    subst h
    have ha : ¬ x ≤ a := by linarith
    have hc : ¬ x > b := by linarith
    simp [triangle, ha, hc, hxb]

/-- Witness for `C6_membership_shapes` at `a = 0`, `b = 1`, `c = 2`,
`x = 1/2`: the rising branch of `ramp_up` is the linear interpolation. -/
theorem C6_membership_shapes_witness :
    ramp_up 0 1 (1/2) = ((1/2 : ℚ) - 0) / (1 - 0) ∧ (0 : ℚ) < 1 - 0 :=
  (C6_membership_shapes 0 1 2 (by norm_num) (by norm_num) (1/2)).2.1
    (by norm_num) (by norm_num)

/-! ## C5: connective semantics -/

/-- C5: for truth values `p, q` in `[0,1]` bound to the predicates `P, Q` of
the interpretation, `eval "P AND Q" = min p q`, `eval "P OR Q" = max p q`,
`eval "NOT (P)" = 1 - p`, and parenthesization is the identity on value, so
`eval "(P)" = eval "P" = p`. -/
theorem C5_connective_semantics (p q : ℚ) (_hp0 : 0 ≤ p) (_hp1 : p ≤ 1)
    (_hq0 : 0 ≤ q) (_hq1 : q ≤ 1) :
    FEval.eval [("P", p), ("Q", q)] "P AND Q" = .ok (min p q)
    ∧ FEval.eval [("P", p), ("Q", q)] "P OR Q" = .ok (max p q)
    ∧ FEval.eval [("P", p)] "NOT (P)" = .ok (1 - p)
    ∧ FEval.eval [("P", p)] "(P)" = .ok p
    ∧ FEval.eval [("P", p)] "(P)" = FEval.eval [("P", p)] "P" := by
  refine ⟨?_, ?_, rfl, rfl, rfl⟩
  · have h : FEval.eval [("P", p), ("Q", q)] "P AND Q" = .ok (FEval.eval_and p q) := rfl
    rw [h, FEval.eval_and_eq_min]
  · have h : FEval.eval [("P", p), ("Q", q)] "P OR Q" = .ok (FEval.eval_or p q) := rfl
    rw [h, FEval.eval_or_eq_max]

/-- Witness for `C5_connective_semantics` at `p = 1/2`, `q = 1/4`. -/
theorem C5_connective_semantics_witness :
    FEval.eval [("P", (1:ℚ)/2), ("Q", (1:ℚ)/4)] "P AND Q" = .ok (min ((1:ℚ)/2) ((1:ℚ)/4)) :=
  (C5_connective_semantics (1/2) (1/4) (by norm_num) (by norm_num)
    (by norm_num) (by norm_num)).1

/-! ## C3: syntax-error behavior of the evaluator -/

/-- C3 counterexample: the claim states that `eval` fails with a syntax-class
error when tokens remain after the first statement is consumed, giving
`"A AND B OR C"` as an example.  In fact `parse_stmt` never checks that the
token deque is exhausted, so with `A = 1/2`, `B = 1/4`, `C = 3/4` the
evaluation succeeds with `min(A, B) = 1/4`, silently discarding `OR C`. -/
theorem C3_counterexample :
    FEval.eval [("A", (1:ℚ)/2), ("B", (1:ℚ)/4), ("C", (3:ℚ)/4)] "A AND B OR C" = .ok (1/4)
    ∧ (Except.ok ((1:ℚ)/4) : Except PyErr ℚ)
      ≠ .error (.assertError "Invalid syntax in fuzzy expression: A AND B OR C") := by
  constructor
  · have h : FEval.eval [("A", (1:ℚ)/2), ("B", (1:ℚ)/4), ("C", (3:ℚ)/4)] "A AND B OR C"
        = .ok (FEval.eval_and (1/2) (1/4)) := rfl
    rw [h]
    norm_num [FEval.eval_and]
  · intro h
    exact Except.noConfusion h

/-- C3 (amended): evaluation fails with the `AssertionError` of `FEval.eval`
("syntax-class error") on a missing left operand (`"AND P"`), on `NOT` not
followed by a parenthesized sub-statement (`"NOT P"`), and on unbalanced
parentheses (`"(P AND Q"`); but tokens remaining after the first statement is
consumed are *not* an error: only the first infix operator after the first
term is consumed and the rest of the input is silently ignored, so
`"A AND B OR C"` evaluates to `min(A, B)`. -/
theorem C3_amended_syntax_errors (p q r : ℚ) :
    FEval.eval [("P", p)] "AND P"
      = .error (.assertError "Invalid syntax in fuzzy expression: AND P")
    ∧ FEval.eval [("P", p)] "NOT P"
      = .error (.assertError "Invalid syntax in fuzzy expression: NOT P")
    ∧ FEval.eval [("P", p), ("Q", q)] "(P AND Q"
      = .error (.assertError "Invalid syntax in fuzzy expression: (P AND Q")
    ∧ FEval.eval [("A", p), ("B", q), ("C", r)] "A AND B OR C" = .ok (min p q) := by
  refine ⟨rfl, rfl, rfl, ?_⟩
  have h : FEval.eval [("A", p), ("B", q), ("C", r)] "A AND B OR C"
      = .ok (FEval.eval_and p q) := rfl
  rw [h, FEval.eval_and_eq_min]

/-! ## C7: lookup errors for unbound predicates

`LookupError` can only arise from `eval_pred` inside `parse_atom`, on an atom
token the parser actually evaluates.  The next lemmas characterize this over
the whole grammar: the parser only ever consumes tokens from the front, so
the remaining input is always a suffix of the original, and every
`LookupError` it raises names an atom token of the input that is absent from
the interpretation. -/

theorem parse_atom_suffix (interp : PyDict ℚ) (input : List String)
    (r : Option ℚ) (rest : List String)
    (h : FEval.parse_atom interp input = .ok (r, rest)) : rest <:+ input := by
  cases input with
  | nil => simp [FEval.parse_atom] at h
  | cons t ts =>
      simp only [FEval.parse_atom] at h
      split at h
      · rcases hg : FEval.eval_pred interp t with e | v <;> rw [hg] at h
        · simp at h
        simp only [ok_bind, pure_eq_ok, Except.ok.injEq, Prod.mk.injEq] at h
        rw [← h.2]
        exact List.suffix_cons t ts
      · simp only [pure_eq_ok, Except.ok.injEq, Prod.mk.injEq] at h
        rw [← h.2]
        exact List.suffix_cons t ts

theorem parse_suffix (interp : PyDict ℚ) : ∀ fuel : Nat,
    (∀ input r rest, FEval.parse_stmt interp fuel input = .ok (r, rest) → rest <:+ input)
    ∧ (∀ input r rest, FEval.parse_term interp fuel input = .ok (r, rest) → rest <:+ input)
    ∧ (∀ input r rest, FEval.parse_encl interp fuel input = .ok (r, rest) → rest <:+ input) := by
  intro fuel
  induction fuel with
  | zero =>
      refine ⟨?_, ?_, ?_⟩ <;>
        · intro input r rest h
          simp only [FEval.parse_stmt, FEval.parse_term, FEval.parse_encl,
            Except.ok.injEq, Prod.mk.injEq] at h
          rw [← h.2]
  | succ fuel ih =>
      obtain ⟨ihs, iht, ihe⟩ := ih
      refine ⟨?_, ?_, ?_⟩
      · intro input r rest h
        simp only [FEval.parse_stmt] at h
        rcases h1 : FEval.parse_term interp fuel input with e1 | r1 <;> rw [h1] at h
        · simp at h
        simp only [ok_bind] at h
        obtain ⟨lhs?, input1⟩ := r1
        have hsuf1 : input1 <:+ input := iht input lhs? input1 h1
        cases lhs? with
        | none =>
            simp only [pure_eq_ok, Except.ok.injEq, Prod.mk.injEq] at h
            rw [← h.2]
            exact hsuf1
        | some lhs =>
            simp only at h
            split at h
            · rcases h2 : FEval.parse_term interp fuel input1.tail with e2 | r2 <;> rw [h2] at h
              · simp at h
              simp only [ok_bind] at h
              obtain ⟨rhs?, input2⟩ := r2
              have hsuf2 : input2 <:+ input :=
                ((iht _ _ _ h2).trans (List.tail_suffix input1)).trans hsuf1
              cases rhs? <;>
                simp only [pure_eq_ok, Except.ok.injEq, Prod.mk.injEq] at h <;>
                · rw [← h.2]
                  exact hsuf2
            · rcases h2 : FEval.parse_term interp fuel input1.tail with e2 | r2 <;> rw [h2] at h
              · simp at h
              simp only [ok_bind] at h
              obtain ⟨rhs?, input2⟩ := r2
              have hsuf2 : input2 <:+ input :=
                ((iht _ _ _ h2).trans (List.tail_suffix input1)).trans hsuf1
              cases rhs? <;>
                simp only [pure_eq_ok, Except.ok.injEq, Prod.mk.injEq] at h <;>
                · rw [← h.2]
                  exact hsuf2
            · simp only [pure_eq_ok, Except.ok.injEq, Prod.mk.injEq] at h
              rw [← h.2]
              exact hsuf1
      · intro input r rest h
        simp only [FEval.parse_term] at h
        split at h
        · rcases h2 : FEval.parse_encl interp fuel input.tail with e2 | r2 <;> rw [h2] at h
          · simp at h
          simp only [ok_bind] at h
          obtain ⟨term?, input2⟩ := r2
          have hsuf2 : input2 <:+ input :=
            (ihe _ _ _ h2).trans (List.tail_suffix input)
          cases term? <;>
            simp only [pure_eq_ok, Except.ok.injEq, Prod.mk.injEq] at h <;>
            · rw [← h.2]
              exact hsuf2
        · split at h
          · exact parse_atom_suffix interp input r rest h
          · exact ihe input r rest h
      · intro input r rest h
        simp only [FEval.parse_encl] at h
        split at h
        · rcases h2 : FEval.parse_stmt interp fuel input.tail with e2 | r2 <;> rw [h2] at h
          · simp at h
          simp only [ok_bind] at h
          obtain ⟨expr?, input2⟩ := r2
          have hsuf2 : input2 <:+ input :=
            (ihs _ _ _ h2).trans (List.tail_suffix input)
          cases expr? with
          | none =>
              simp only [pure_eq_ok, Except.ok.injEq, Prod.mk.injEq] at h
              rw [← h.2]
              exact hsuf2
          | some expr =>
              simp only at h
              split at h <;>
                simp only [pure_eq_ok, Except.ok.injEq, Prod.mk.injEq] at h <;>
                rw [← h.2]
              · exact (List.tail_suffix input2).trans hsuf2
              · exact hsuf2
        · simp only [pure_eq_ok, Except.ok.injEq, Prod.mk.injEq] at h
          rw [← h.2]

/-- The tokens that cause a `LookupError`: an atom absent from the
interpretation, named in the message. -/
def lookupWitness (interp : PyDict ℚ) (input : List String) (m : String) : Prop :=
  ∃ u ∈ input, FEval.is_atom (some u) = true ∧ dget interp u = none
    ∧ m = "No truth value provided for fuzzy predicate: " ++ u

theorem lookupWitness_mono (interp : PyDict ℚ) (input1 input2 : List String)
    (m : String) (hsub : input1 ⊆ input2) (h : lookupWitness interp input1 m) :
    lookupWitness interp input2 m := by
  obtain ⟨u, hu, h1, h2, h3⟩ := h
  exact ⟨u, hsub hu, h1, h2, h3⟩

theorem parse_atom_lookup (interp : PyDict ℚ) (input : List String) (m : String)
    (h : FEval.parse_atom interp input = .error (.lookupError m)) :
    lookupWitness interp input m := by
  cases input with
  | nil => simp [FEval.parse_atom] at h
  | cons t ts =>
      simp only [FEval.parse_atom] at h
      split at h
      · rcases hg : dget interp t with _ | v
        · rw [show FEval.eval_pred interp t = .error
              (.lookupError ("No truth value provided for fuzzy predicate: " ++ t)) by
            simp [FEval.eval_pred, hg]] at h
          simp only [error_bind, Except.error.injEq, PyErr.lookupError.injEq] at h
          exact ⟨t, List.mem_cons_self t ts, by assumption, hg, h.symm⟩
        · rw [show FEval.eval_pred interp t = .ok v by simp [FEval.eval_pred, hg]] at h
          simp at h
      · simp at h

theorem parse_lookup (interp : PyDict ℚ) : ∀ fuel : Nat,
    (∀ input m, FEval.parse_stmt interp fuel input = .error (.lookupError m) →
      lookupWitness interp input m)
    ∧ (∀ input m, FEval.parse_term interp fuel input = .error (.lookupError m) →
      lookupWitness interp input m)
    ∧ (∀ input m, FEval.parse_encl interp fuel input = .error (.lookupError m) →
      lookupWitness interp input m) := by
  intro fuel
  induction fuel with
  | zero =>
      refine ⟨?_, ?_, ?_⟩ <;>
        · intro input m h
          simp [FEval.parse_stmt, FEval.parse_term, FEval.parse_encl] at h
  | succ fuel ih =>
      obtain ⟨ihs, iht, ihe⟩ := ih
      refine ⟨?_, ?_, ?_⟩
      · intro input m h
        simp only [FEval.parse_stmt] at h
        rcases h1 : FEval.parse_term interp fuel input with e1 | r1 <;> rw [h1] at h
        · simp only [error_bind, Except.error.injEq] at h
          exact iht input m (by rw [h1, h])
        simp only [ok_bind] at h
        obtain ⟨lhs?, input1⟩ := r1
        have hsub : input1 ⊆ input :=
          ((parse_suffix interp fuel).2.1 input lhs? input1 h1).subset
        cases lhs? with
        | none => simp at h
        | some lhs =>
            simp only at h
            split at h
            · rcases h2 : FEval.parse_term interp fuel input1.tail with e2 | r2 <;> rw [h2] at h
              · simp only [error_bind, Except.error.injEq] at h
                refine lookupWitness_mono interp input1.tail input m
                  (fun u hu => hsub ((List.tail_suffix input1).subset hu)) ?_
                exact iht input1.tail m (by rw [h2, h])
              simp only [ok_bind] at h
              obtain ⟨rhs?, input2⟩ := r2
              cases rhs? <;> simp at h
            · rcases h2 : FEval.parse_term interp fuel input1.tail with e2 | r2 <;> rw [h2] at h
              · simp only [error_bind, Except.error.injEq] at h
                refine lookupWitness_mono interp input1.tail input m
                  (fun u hu => hsub ((List.tail_suffix input1).subset hu)) ?_
                exact iht input1.tail m (by rw [h2, h])
              simp only [ok_bind] at h
              obtain ⟨rhs?, input2⟩ := r2
              cases rhs? <;> simp at h
            · simp at h
      · intro input m h
        simp only [FEval.parse_term] at h
        split at h
        · rcases h2 : FEval.parse_encl interp fuel input.tail with e2 | r2 <;> rw [h2] at h
          · simp only [error_bind, Except.error.injEq] at h
            refine lookupWitness_mono interp input.tail input m
              (List.tail_suffix input).subset ?_
            exact ihe input.tail m (by rw [h2, h])
          simp only [ok_bind] at h
          obtain ⟨term?, input2⟩ := r2
          cases term? <;> simp at h
        · split at h
          · exact parse_atom_lookup interp input m h
          · exact ihe input m h
      · intro input m h
        simp only [FEval.parse_encl] at h
        split at h
        · rcases h2 : FEval.parse_stmt interp fuel input.tail with e2 | r2 <;> rw [h2] at h
          · simp only [error_bind, Except.error.injEq] at h
            refine lookupWitness_mono interp input.tail input m
              (List.tail_suffix input).subset ?_
            exact ihs input.tail m (by rw [h2, h])
          simp only [ok_bind] at h
          obtain ⟨expr?, input2⟩ := r2
          cases expr? with
          | none => simp at h
          | some expr =>
              simp only at h
              split at h <;> simp at h
        · simp at h

/-- C7 counterexample: the claim says that a statement containing an atom
absent from the interpretation fails with a `LookupError` identifying it.  In
fact the parser does not always reach such an atom: with `A = 1/2`,
`B = 1/4` and `Missing` unbound, `"A AND B OR Missing"` *succeeds* with
`min(A, B) = 1/4` (the absent atom is among the silently discarded trailing
tokens), and `"NOT Missing"` fails with the `AssertionError` of the syntax
check, not a `LookupError`. -/
theorem C7_counterexample :
    FEval.eval [("A", (1:ℚ)/2), ("B", (1:ℚ)/4)] "A AND B OR Missing" = .ok (1/4)
    ∧ FEval.eval [("A", (1:ℚ)/2)] "NOT Missing"
      = .error (.assertError "Invalid syntax in fuzzy expression: NOT Missing")
    ∧ (Except.ok ((1:ℚ)/4) : Except PyErr ℚ)
      ≠ .error (.lookupError "No truth value provided for fuzzy predicate: Missing")
    ∧ (Except.error (.assertError "Invalid syntax in fuzzy expression: NOT Missing")
        : Except PyErr ℚ)
      ≠ .error (.lookupError "No truth value provided for fuzzy predicate: Missing") := by
  refine ⟨?_, rfl, ?_, ?_⟩
  · have h : FEval.eval [("A", (1:ℚ)/2), ("B", (1:ℚ)/4)] "A AND B OR Missing"
        = .ok (FEval.eval_and (1/2) (1/4)) := rfl
    rw [h]
    norm_num [FEval.eval_and]
  · intro h
    exact Except.noConfusion h
  · intro h
    simp at h

/-- C7 (amended): whenever evaluation of any statement fails with a
`LookupError`, the message identifies an atom token of that statement that is
absent from the interpretation; an absent atom that the parser actually
evaluates raises exactly that `LookupError` — as a whole statement, as the
right operand of an infix operator, or parenthesized under `NOT` — and an
atom that is present evaluates to its assigned truth value.  (As the
counterexample shows, an absent atom is not always reached: `NOT` without
parentheses fails with the `AssertionError` first, and tokens after the first
statement are silently discarded.) -/
theorem C7_amended_lookup_errors (interp : PyDict ℚ) (t : String) (a : ℚ)
    (hatom : FEval.is_atom (some t) = true)
    (habs : dget interp t = none)
    (hA : dget interp "A" = some a) :
    (∀ stmt m, FEval.eval interp stmt = .error (.lookupError m) →
      ∃ u ∈ FEval.tokenize stmt, FEval.is_atom (some u) = true ∧ dget interp u = none
        ∧ m = "No truth value provided for fuzzy predicate: " ++ u)
    ∧ FEval.evalTokens interp t [t]
      = .error (.lookupError ("No truth value provided for fuzzy predicate: " ++ t))
    ∧ FEval.evalTokens interp ("A AND " ++ t) ["A", "AND", t]
      = .error (.lookupError ("No truth value provided for fuzzy predicate: " ++ t))
    ∧ FEval.evalTokens interp ("NOT ( " ++ t ++ " )") ["NOT", "(", t, ")"]
      = .error (.lookupError ("No truth value provided for fuzzy predicate: " ++ t))
    ∧ FEval.evalTokens interp "A" ["A"] = .ok a := by
  have hNOT : t ≠ "NOT" := by
    simp [FEval.is_atom] at hatom
    exact hatom.1
  have hAatom : FEval.is_atom (some "A") = true := by decide
  refine ⟨?_, ?_, ?_, ?_, ?_⟩
  · intro stmt m h
    unfold FEval.eval FEval.evalTokens at h
    rcases h1 : FEval.parse_stmt interp (3 * (FEval.tokenize stmt).length + 3)
        (FEval.tokenize stmt) with e1 | r1 <;> rw [h1] at h
    · simp only [error_bind, Except.error.injEq] at h
      exact (parse_lookup interp _).1 (FEval.tokenize stmt) m (by rw [h1, h])
    · simp only [ok_bind] at h
      obtain ⟨r?, rest⟩ := r1
      cases r? <;> simp at h
  · simp [FEval.evalTokens, FEval.parse_stmt, FEval.parse_term, FEval.parse_atom,
      FEval.eval_pred, hNOT, hatom, habs]
  · simp [FEval.evalTokens, FEval.parse_stmt, FEval.parse_term, FEval.parse_atom,
      FEval.eval_pred, hNOT, hatom, habs, hA, hAatom]
  · simp [FEval.evalTokens, FEval.parse_stmt, FEval.parse_term, FEval.parse_encl,
      FEval.parse_atom, FEval.eval_pred, hNOT, hatom, habs]
  · simp [FEval.evalTokens, FEval.parse_stmt, FEval.parse_term, FEval.parse_atom,
      FEval.eval_pred, hA, hAatom]

/-- Witness for `C7_amended_lookup_errors`: with `A = 1/2` bound and
`Missing` unbound, the compound statement `A AND Missing` raises the
identifying `LookupError`. -/
theorem C7_amended_lookup_errors_witness :
    FEval.evalTokens [("A", (1:ℚ)/2)] ("A AND " ++ "Missing") ["A", "AND", "Missing"]
      = .error (.lookupError ("No truth value provided for fuzzy predicate: " ++ "Missing")) :=
  (C7_amended_lookup_errors [("A", (1:ℚ)/2)] "Missing" (1/2)
    (by decide) rfl rfl).2.2.1

/-! ## C4: weighted-centroid defuzzification -/

/-- The total activation `Σ activation` that `defuzzify_var` accumulates in
`sumu`, as a pure list sum. -/
def totalActivation (vals mus : PyDict ℚ) : ℚ :=
  ((dkeys vals).map (fun l => (dget mus l).getD 0)).sum

/-- The weighted sum `Σ (activation × crisp value)` that `defuzzify_var`
accumulates in `sumv`, as a pure list sum. -/
def weightedActivation (vals mus : PyDict ℚ) : ℚ :=
  ((dkeys vals).map (fun l => (dget mus l).getD 0 * (dget vals l).getD 0)).sum

theorem defuzz_sums_eq (mus vals : PyDict ℚ) (ls : List String)
    (hm : ∀ l ∈ ls, (dget mus l).isSome) (hv : ∀ l ∈ ls, (dget vals l).isSome)
    (sv su : ℚ) :
    FController.defuzz_sums mus vals ls (sv, su)
    = .ok (sv + ((ls.map (fun l => (dget mus l).getD 0 * (dget vals l).getD 0)).sum),
           su + ((ls.map (fun l => (dget mus l).getD 0)).sum)) := by
  induction ls generalizing sv su with
  | nil => simp [FController.defuzz_sums]
  | cons l ls ih =>
      obtain ⟨mu, hmu⟩ := Option.isSome_iff_exists.mp (hm l (List.mem_cons_self l ls))
      obtain ⟨v, hv'⟩ := Option.isSome_iff_exists.mp (hv l (List.mem_cons_self l ls))
      have ihs := ih (fun l' hl' => hm l' (List.mem_cons_of_mem _ hl'))
        (fun l' hl' => hv l' (List.mem_cons_of_mem _ hl'))
      simp only [FController.defuzz_sums, dgetE, hmu, hv', ok_bind, List.map_cons,
        List.sum_cons]
      rw [ihs (sv + mu * v) (su + mu)]
      simp only [hmu, hv', Option.getD_some, Except.ok.injEq, Prod.mk.injEq]
      constructor <;> ring

/-- C4: for an output variable whose total activation is nonzero,
`defuzzify_var` computes the weighted centroid
`Σ (activation × crisp value) / Σ activation` over the variable's labels
(and `None` when the total activation is zero); in particular, activations
`[0, 1, 0.3]` with crisp values `[0, 40, −40]` defuzzify to
`(0×0 + 1×40 + 0.3×(−40)) / (0 + 1 + 0.3) = 280/13 ≈ 21.54`. -/
theorem C4_weighted_centroid :
    (∀ (flsets : PyDict FLSet) (flvars : PyDict FLVar) (cvar lvar tgt : String)
        (mus vals : PyDict ℚ) (d : ℤ),
      dget flsets cvar = some (mus, lvar) →
      dget flvars lvar = some (vals, tgt) →
      (∀ l ∈ dkeys vals, (dget mus l).isSome) →
      (FController.defuzzify_core flsets flvars cvar d).map Prod.fst
        = .ok (if totalActivation vals mus = 0 then none
               else some (weightedActivation vals mus / totalActivation vals mus)))
    ∧ (FController.defuzzify_core
          [("V", ([("a", 0), ("b", 1), ("c", 3/10)], "L"))]
          [("L", (([("a", 0), ("b", 40), ("c", -40)] : PyDict ℚ), "V"))] "V" 0).map Prod.fst
        = .ok (some (280/13))
    ∧ (280/13 : ℚ) = (0 * 0 + 1 * 40 + (3/10) * (-40)) / (0 + 1 + 3/10) := by
  refine ⟨?_, by with_unfolding_all rfl, by norm_num⟩
  intro flsets flvars cvar lvar tgt mus vals d h1 h2 hm
  have hv : ∀ l ∈ dkeys vals, (dget vals l).isSome :=
    fun l hl => dget_isSome_of_mem_dkeys hl
  unfold FController.defuzzify_core
  rw [show dgetE flsets cvar = Except.ok ((mus, lvar) : FLSet) by simp [dgetE, h1]]
  simp only [ok_bind]
  rw [show dgetE flvars lvar = Except.ok ((vals, tgt) : FLVar) by simp [dgetE, h2]]
  simp only [ok_bind]
  rw [defuzz_sums_eq mus vals (dkeys vals) hm hv 0 0]
  simp only [ok_bind, zero_add, totalActivation, weightedActivation]
  by_cases h0 : ((dkeys vals).map (fun l => (dget mus l).getD 0)).sum = 0
  · simp [h0]
  · simp [h0]

/-- Witness for the general part of `C4_weighted_centroid`, at the concrete
fuzzy set of its own second conjunct. -/
theorem C4_weighted_centroid_witness :
    (FController.defuzzify_core
        [("V", ([("a", 0), ("b", 1), ("c", 3/10)], "L"))]
        [("L", (([("a", 0), ("b", 40), ("c", -40)] : PyDict ℚ), "V"))] "V" 0).map Prod.fst
      = .ok (if totalActivation [("a", 0), ("b", 40), ("c", -40)]
                  [("a", 0), ("b", 1), ("c", 3/10)] = 0 then none
             else some (weightedActivation [("a", 0), ("b", 40), ("c", -40)]
                  [("a", 0), ("b", 1), ("c", 3/10)]
                / totalActivation [("a", 0), ("b", 40), ("c", -40)]
                  [("a", 0), ("b", 1), ("c", 3/10)])) :=
  C4_weighted_centroid.1 _ _ "V" "L" "V" _ _ 0 rfl rfl (by decide)

/-! ## C10: missing output variables raise `KeyError` -/

/-- C10: a Behavior whose construction declares no linguistic variable
targeting `Vlin` (resp. `Vrot`) has no entry for it in the `output` dict, and
`get_vlin` (resp. `get_vrot`) then raises a `KeyError` instead of returning a
default velocity; in particular this holds for the Lab5 behaviors
`GoTo`/`Cross`/`Open`/`Close`, whose `setup` declares no linguistic variables
at all, so that right after construction `output` is empty. -/
theorem C10_missing_output_keyerror (c : FCtrl) (rad : ℚ → ℚ)
    (hl : dget c.output "Vlin" = none) (hr : dget c.output "Vrot" = none) :
    Behavior.get_vlin c = .error (.keyError "Vlin")
    ∧ Behavior.get_vrot rad c = .error (.keyError "Vrot")
    ∧ (lab5Construct freshCtrl).output = []
    ∧ Behavior.get_vlin (lab5Construct freshCtrl) = .error (.keyError "Vlin")
    ∧ Behavior.get_vrot rad (lab5Construct freshCtrl) = .error (.keyError "Vrot") := by
  refine ⟨?_, ?_, rfl, rfl, rfl⟩
  · simp [Behavior.get_vlin, dgetE, hl]
  · simp [Behavior.get_vrot, dgetE, hr]

/-- Witness for `C10_missing_output_keyerror` at a freshly constructed Lab5
behavior and the identity standing in for the degree-to-radian conversion. -/
theorem C10_missing_output_keyerror_witness :
    Behavior.get_vlin (lab5Construct freshCtrl) = .error (.keyError "Vlin")
    ∧ Behavior.get_vrot id (lab5Construct freshCtrl) = .error (.keyError "Vrot") :=
  ⟨(C10_missing_output_keyerror (lab5Construct freshCtrl) id rfl rfl).1,
   (C10_missing_output_keyerror (lab5Construct freshCtrl) id rfl rfl).2.1⟩

/-! ## Concrete control-cycle scenarios

The following behavior tables and update functions instantiate the pipeline on
concrete inputs.  `updGoTo` stands in for `GoToTarget.update_state` at a pose
from which the target is 30° to the left at distance 5 m (the spec's
end-to-end scenario `phi = 30.0, rho = 5.0`); the trigonometric pose-to-
`(phi, rho)` computation itself is outside the rational fragment modelled
here, so the computed state values are supplied directly.  `updPass` is the
`update_state` of the Lab5 behaviors, which is `pass`. -/

def updGoTo : PyDict ℚ → PyDict ℚ → PyDict ℚ := fun _ s => dset (dset s "phi" 30) "rho" 5

def updPass : PyDict ℚ → PyDict ℚ → PyDict ℚ := fun _ s => s

/-- The controller state right after `GoToTarget` is constructed on fresh
class-level dicts (tables bound, `init_flsets` and `init_fpreds` run). -/
def cGoTo0 : FCtrl :=
  ⟨[], [("Vlin", 0), ("Vrot", 0)], GoToTarget.tables.frules, GoToTarget.tables.fpreds,
   GoToTarget.tables.flvars,
   [("Vlin", ([("Fast", 0), ("Slow", 0), ("None", 0), ("Back", 0)], "Move")),
    ("Vrot", ([("Left", 0), ("MLeft", 0), ("None", 0), ("MRight", 0), ("Right", 0)], "Turn"))],
   [("TargetLeft", 0), ("TargetRight", 0), ("TargetAhead", 0), ("TargetHere", 0)],
   "TargetHere"⟩

/-- `cGoTo0` after `update_state` and `eval_fpreds` of the first cycle:
`TargetLeft = 5/11`, `TargetAhead = 1/2`, the others `0`. -/
def cGoToA : FCtrl :=
  ⟨[("phi", 30), ("rho", 5)], [("Vlin", 0), ("Vrot", 0)], GoToTarget.tables.frules,
   GoToTarget.tables.fpreds, GoToTarget.tables.flvars,
   [("Vlin", ([("Fast", 0), ("Slow", 0), ("None", 0), ("Back", 0)], "Move")),
    ("Vrot", ([("Left", 0), ("MLeft", 0), ("None", 0), ("MRight", 0), ("Right", 0)], "Turn"))],
   [("TargetLeft", 5/11), ("TargetRight", 0), ("TargetAhead", 1/2), ("TargetHere", 0)],
   "TargetHere"⟩

/-- `cGoToA` after `eval_frules`: the rules `ToLeft` and `Far` have fired. -/
def cGoToB : FCtrl :=
  { cGoToA with flsets :=
     [("Vlin", ([("Fast", 1/2), ("Slow", 0), ("None", 0), ("Back", 0)], "Move")),
      ("Vrot", ([("Left", 5/11), ("MLeft", 0), ("None", 0), ("MRight", 0), ("Right", 0)], "Turn"))] }

/-- `cGoToB` after `defuzzify`: crisp outputs `Vlin = 0.5`, `Vrot = 40`. -/
def cGoToC : FCtrl := { cGoToB with output := [("Vlin", 1/2), ("Vrot", 40)] }

set_option maxHeartbeats 1000000 in
theorem goto_construct_eq : GoToTarget.construct freshCtrl = cGoTo0 := by
  with_unfolding_all rfl

set_option maxHeartbeats 1000000 in
theorem goto_run_eq : FController.run updGoTo cGoTo0 [] 0 = .ok (0, cGoToC, []) := by
  have hA : FController.eval_fpreds { cGoTo0 with state := updGoTo [] cGoTo0.state }
      = .ok cGoToA := by
    with_unfolding_all rfl
  have hB : FController.eval_frules cGoToA 0 = .ok (cGoToB, []) := by with_unfolding_all rfl
  have hC : FController.defuzzify cGoToB 0 = .ok (cGoToC, []) := by with_unfolding_all rfl
  have hD : FController.eval_goal cGoToC = .ok 0 := by with_unfolding_all rfl
  simp only [FController.run, hA, hB, hC, hD, ok_bind, pure_eq_ok]
  norm_num

/-! ## C2: fuzzy-set state carries over across `set_behavior` -/

/-- C2 (refuting the claim; the code, not the claim, is at fault): because
`FController` declares `state`, `output`, `flsets` and `fpvals` as class-level
dicts that are mutated in place and never rebound, the Behavior constructed by
`set_behavior` shares them with the previous Behavior.  Concretely: construct
`GoToTarget`, run one cycle in which its rules fire, then swap to the Lab5
`GoTo` behavior.  (1) The `Vrot` output set still holds the previous
behavior's activation `5/11 ≠ 0` instead of being reset; (2) the swapped-in
behavior's first cycle raises `KeyError 'Move'` from the stale shared
`output`/`flsets`, whereas (3) the same behavior constructed on fresh state
raises `LookupError` on its goal predicate `True` — so the new behavior's
first-cycle result depends on the previous behavior's accumulated state. -/
theorem C2_shared_state_across_swap :
    ((FController.run updGoTo (GoToTarget.construct freshCtrl) [] 0).map
        (fun r => dget (lab5Construct r.2.1).flsets "Vrot")
      = .ok (some ([("Left", 5/11), ("MLeft", 0), ("None", 0), ("MRight", 0), ("Right", 0)], "Turn")))
    ∧ ((5 : ℚ)/11 ≠ 0)
    ∧ ((FController.run updGoTo (GoToTarget.construct freshCtrl) [] 0 >>= fun r =>
        FController.run updPass (lab5Construct r.2.1) [] 0)
      = .error (.keyError "Move"))
    ∧ (FController.run updPass (lab5Construct freshCtrl) [] 0
      = .error (.lookupError "No truth value provided for fuzzy predicate: True")) := by
  have h2 : FController.run updPass (lab5Construct cGoToC) [] 0
      = .error (.keyError "Move") := by
    set_option maxHeartbeats 1000000 in with_unfolding_all rfl
  have h3 : FController.run updPass (lab5Construct freshCtrl) [] 0
      = .error (.lookupError "No truth value provided for fuzzy predicate: True") := by
    set_option maxHeartbeats 1000000 in with_unfolding_all rfl
  refine ⟨?_, by norm_num, ?_, h3⟩
  · rw [goto_construct_eq, goto_run_eq]
    with_unfolding_all rfl
  · rw [goto_construct_eq, goto_run_eq, ok_bind]
    exact h2

/-! ## C1: zero-activation cycles reset the output to 0.0 -/

/-- A minimal behavior for the zero-activation scenario: one predicate `P`
(`ramp_up(0, 1)` on state variable `x`), one linguistic variable
`Turn = ({Left: 40}, Vrot)`, one rule `R: IF P THEN Turn(Left)`, goal `P`. -/
def holdTables : BTables :=
  ⟨[("P", (ramp_up 0 1, "x"))], [("Turn", ([("Left", 40)], "Vrot"))],
   [("R", ("P", "Turn", "Left"))], "P"⟩

/-- The scenario's `update_state`: copy the external `x` into the state. -/
def holdUpd : PyDict ℚ → PyDict ℚ → PyDict ℚ :=
  fun ext s => dset s "x" ((dget ext "x").getD 0)

/-- The `holdTables` behavior right after construction. -/
def holdCtrl0 : FCtrl :=
  ⟨[], [("Vrot", 0)], holdTables.frules, holdTables.fpreds, holdTables.flvars,
   [("Vrot", ([("Left", 0)], "Turn"))], [("P", 0)], "P"⟩

/-- `holdCtrl0` after a cycle with `x = 2`: the rule fired at level 1 and
`Vrot` was defuzzified to 40. -/
def holdCtrl1 : FCtrl :=
  ⟨[("x", 2)], [("Vrot", 40)], holdTables.frules, holdTables.fpreds, holdTables.flvars,
   [("Vrot", ([("Left", 1)], "Turn"))], [("P", 1)], "P"⟩

/-- `holdCtrl1` after a cycle with `x = 0`: no rule fired (total activation
zero), and `Vrot` is 0 — the reset value, not the previous cycle's 40. -/
def holdCtrl2 : FCtrl :=
  ⟨[("x", 0)], [("Vrot", 0)], holdTables.frules, holdTables.fpreds, holdTables.flvars,
   [("Vrot", ([("Left", 0)], "Turn"))], [("P", 0)], "P"⟩

set_option maxHeartbeats 1000000 in
theorem hold_construct_eq :
    FController.init_fpreds (FController.init_flsets
      (Controller.set_behavior freshCtrl holdTables)) = holdCtrl0 := by
  with_unfolding_all rfl

set_option maxHeartbeats 1000000 in
theorem hold_run1 :
    FController.run holdUpd holdCtrl0 [("x", 2)] 0 = .ok (1, holdCtrl1, []) := by
  with_unfolding_all rfl

set_option maxHeartbeats 1000000 in
theorem hold_run2 :
    FController.run holdUpd holdCtrl1 [("x", 0)] 0 = .ok (0, holdCtrl2, []) := by
  with_unfolding_all rfl

/-- C1 counterexample: the claim says a cycle with zero total activation for
an output variable leaves that variable's crisp value at the previous cycle's
value.  In fact `eval_frules` calls `init_flsets` every cycle, which resets
`output[cvar]` to `0.0`, so the zero-activation cycle ends with `0.0`
regardless of the previous value: after a first cycle ends with
`Vrot = 40`, a second cycle in which no rule fires (the `Vrot` output set is
all zeros) ends with `Vrot = 0 ≠ 40`. -/
theorem C1_counterexample :
    ((FController.run holdUpd (FController.init_fpreds (FController.init_flsets
          (Controller.set_behavior freshCtrl holdTables))) [("x", 2)] 0).map
        (fun r => dget r.2.1.output "Vrot") = .ok (some 40))
    ∧ ((FController.run holdUpd (FController.init_fpreds (FController.init_flsets
          (Controller.set_behavior freshCtrl holdTables))) [("x", 2)] 0 >>= fun r =>
        FController.run holdUpd r.2.1 [("x", 0)] 0).map
          (fun r => dget r.2.1.flsets "Vrot") = .ok (some ([("Left", 0)], "Turn")))
    ∧ ((FController.run holdUpd (FController.init_fpreds (FController.init_flsets
          (Controller.set_behavior freshCtrl holdTables))) [("x", 2)] 0 >>= fun r =>
        FController.run holdUpd r.2.1 [("x", 0)] 0).map
          (fun r => dget r.2.1.output "Vrot") = .ok (some 0))
    ∧ ((0 : ℚ) ≠ 40) := by
  refine ⟨?_, ?_, ?_, by norm_num⟩
  · rw [hold_construct_eq, hold_run1]
    with_unfolding_all rfl
  · rw [hold_construct_eq, hold_run1, ok_bind]
    show (FController.run holdUpd holdCtrl1 [("x", 0)] 0).map
        (fun r => dget r.2.1.flsets "Vrot") = .ok (some ([("Left", 0)], "Turn"))
    rw [hold_run2]
    with_unfolding_all rfl
  · rw [hold_construct_eq, hold_run1, ok_bind]
    show (FController.run holdUpd holdCtrl1 [("x", 0)] 0).map
        (fun r => dget r.2.1.output "Vrot") = .ok (some 0)
    rw [hold_run2]
    with_unfolding_all rfl

/-! ## Frame lemmas for the pipeline stages -/

theorem eval_fpreds_loop_shape (ps : List String) (c c1 : FCtrl)
    (h : FController.eval_fpreds_loop c ps = .ok c1) :
    ∃ fv, c1 = { c with fpvals := fv } := by
  induction ps generalizing c with
  | nil =>
      simp only [FController.eval_fpreds_loop, Except.ok.injEq] at h
      exact ⟨c.fpvals, by rw [← h]⟩
  | cons p ps ih =>
      simp only [FController.eval_fpreds_loop] at h
      rcases h1 : FController.eval_fpred c p with e1 | v <;> rw [h1] at h
      · simp at h
      simp only [ok_bind] at h
      obtain ⟨fv, hfv⟩ := ih _ h
      exact ⟨fv, by rw [hfv]⟩

theorem eval_fpreds_shape (c c1 : FCtrl) (h : FController.eval_fpreds c = .ok c1) :
    ∃ fv, c1 = { c with fpvals := fv } :=
  eval_fpreds_loop_shape _ c c1 h

theorem eval_frule_shape (c : FCtrl) (n : String) (d : ℤ) (c1 : FCtrl) (e : List Ev)
    (h : FController.eval_frule c n d = .ok (c1, e)) :
    ∃ fl, c1 = { c with flsets := fl } := by
  unfold FController.eval_frule at h
  rcases h1 : dgetE c.frules n with e1 | frule <;> rw [h1] at h
  · simp at h
  simp only [ok_bind] at h
  rcases h2 : dgetE c.flvars frule.2.1 with e2 | flvar <;> rw [h2] at h
  · simp at h
  simp only [ok_bind] at h
  rcases h3 : dgetE c.flsets flvar.2 with e3 | flset <;> rw [h3] at h
  · simp at h
  simp only [ok_bind] at h
  rcases h4 : FEval.eval c.fpvals frule.1 with e4 | level <;> rw [h4] at h
  · simp at h
  simp only [ok_bind] at h
  rcases h5 : dgetE flset.1 frule.2.2 with e5 | old <;> rw [h5] at h
  · simp at h
  simp only [ok_bind, pure_eq_ok, Except.ok.injEq, Prod.mk.injEq] at h
  exact ⟨_, h.1.symm⟩

theorem applyRules_shape (d : ℤ) (ns : List String) (c c2 : FCtrl) (es : List Ev)
    (h : FController.applyRules d c ns = .ok (c2, es)) :
    ∃ fl, c2 = { c with flsets := fl } := by
  induction ns generalizing c es with
  | nil =>
      simp only [FController.applyRules, Except.ok.injEq, Prod.mk.injEq] at h
      exact ⟨c.flsets, by rw [← h.1]⟩
  | cons n ns ih =>
      simp only [FController.applyRules] at h
      rcases h1 : FController.eval_frule c n d with e1 | r <;> rw [h1] at h
      · simp at h
      simp only [ok_bind] at h
      rcases h2 : FController.applyRules d r.1 ns with e2 | r2 <;> rw [h2] at h
      · simp at h
      simp only [ok_bind, pure_eq_ok, Except.ok.injEq, Prod.mk.injEq] at h
      obtain ⟨fl1, hfl1⟩ := eval_frule_shape c n d r.1 r.2 (by rw [h1])
      obtain ⟨fl2, hfl2⟩ := ih r.1 r2.2 (by rw [h2, ← h.1])
      exact ⟨fl2, by rw [hfl2, hfl1]⟩

theorem init_fold_shape (fl : List (String × FLVar)) (c : FCtrl) :
    ∃ fs out, fl.foldl FController.init_step c = { c with flsets := fs, output := out } := by
  induction fl generalizing c with
  | nil => exact ⟨c.flsets, c.output, rfl⟩
  | cons nf fl ih =>
      obtain ⟨fs, out, hfo⟩ := ih (FController.init_step c nf)
      exact ⟨fs, out, by rw [List.foldl_cons, hfo]; rfl⟩

theorem init_fold_output_of_not_target (fl : List (String × FLVar)) (c : FCtrl)
    (cvar : String) (h : ∀ nf ∈ fl, nf.2.2 ≠ cvar) :
    dget (fl.foldl FController.init_step c).output cvar = dget c.output cvar := by
  induction fl generalizing c with
  | nil => rfl
  | cons nf fl ih =>
      rw [List.foldl_cons, ih _ (fun nf' h' => h nf' (List.mem_cons_of_mem _ h'))]
      show dget (dset c.output nf.2.2 0) cvar = dget c.output cvar
      exact dget_dset_ne _ _ _ _
        (fun he : cvar = nf.2.2 => h nf (List.mem_cons_self nf fl) he.symm)

theorem init_fold_output_of_target (fl : List (String × FLVar)) (c : FCtrl)
    (cvar : String) (h : ∃ nf ∈ fl, nf.2.2 = cvar) :
    dget (fl.foldl FController.init_step c).output cvar = some 0 := by
  induction fl generalizing c with
  | nil => simp at h
  | cons nf fl ih =>
      by_cases h' : ∃ nf' ∈ fl, nf'.2.2 = cvar
      · exact List.foldl_cons _ _ ▸ ih (FController.init_step c nf) h'
      · push_neg at h'
        have hnf : nf.2.2 = cvar := by
          obtain ⟨nf0, hmem, htg⟩ := h
          rcases List.mem_cons.mp hmem with rfl | hin
          · exact htg
          · exact absurd htg (h' nf0 hin)
        rw [List.foldl_cons, init_fold_output_of_not_target fl _ cvar h']
        show dget (dset c.output nf.2.2 0) cvar = some 0
        rw [hnf, dget_dset_self]

theorem eval_frules_decomp (c : FCtrl) (d : ℤ) (c2 : FCtrl) (evs : List Ev)
    (h : FController.eval_frules c d = .ok (c2, evs)) :
    ∃ es, FController.applyRules d (FController.init_flsets c) (dkeys c.frules)
      = .ok (c2, es) := by
  unfold FController.eval_frules FController.eval_frules_with at h
  by_cases hd : d > 0 <;> [rw [if_pos hd] at h; rw [if_neg hd] at h]
  · rcases h1 : FController.print_fpreds c with e1 | evs0 <;> rw [h1] at h
    · simp at h
    simp only [ok_bind] at h
    rcases h2 : FController.applyRules d (FController.init_flsets c) (dkeys c.frules)
      with e2 | r2 <;> rw [h2] at h
    · simp at h
    simp only [ok_bind, pure_eq_ok, Except.ok.injEq, Prod.mk.injEq] at h
    obtain ⟨hl, hr⟩ := h
    subst hl
    exact ⟨r2.2, rfl⟩
  · simp only [pure_eq_ok, ok_bind] at h
    rcases h2 : FController.applyRules d (FController.init_flsets c) (dkeys c.frules)
      with e2 | r2 <;> rw [h2] at h
    · simp at h
    simp only [ok_bind, pure_eq_ok, Except.ok.injEq, Prod.mk.injEq] at h
    obtain ⟨hl, hr⟩ := h
    subst hl
    exact ⟨r2.2, rfl⟩

theorem run_decomp (upd : PyDict ℚ → PyDict ℚ → PyDict ℚ) (c : FCtrl) (ext : PyDict ℚ)
    (d : ℤ) (v : ℚ) (c' : FCtrl) (evs : List Ev) :
    FController.run upd c ext d = .ok (v, c', evs) →
    ∃ c1 c2 evs1 evs2,
      FController.eval_fpreds { c with state := upd ext c.state } = .ok c1
      ∧ FController.eval_frules c1 d = .ok (c2, evs1)
      ∧ FController.defuzzify c2 d = .ok (c', evs2)
      ∧ FController.eval_goal c' = .ok v := by
  simp only [FController.run]
  rcases h1 : FController.eval_fpreds { c with state := upd ext c.state } with e1 | c1
  · intro h
    simp at h
  simp only [ok_bind]
  rcases h2 : FController.eval_frules c1 d with e2 | r2
  · intro h
    simp at h
  simp only [ok_bind]
  rcases h3 : FController.defuzzify r2.1 d with e3 | r3
  · intro h
    simp at h
  simp only [ok_bind]
  rcases h4 : FController.eval_goal r3.1 with e4 | v4
  · intro h
    simp at h
  simp only [ok_bind, pure_eq_ok]
  intro h
  simp only [Except.ok.injEq, Prod.mk.injEq] at h
  obtain ⟨hv, hc, he⟩ := h
  subst hv
  subst hc
  exact ⟨c1, r2.1, r2.2, r3.2, rfl, h2, h3, h4⟩

/-- The result value of `defuzzify_var` (the `Option ℚ`) does not depend on
the debug level, which only controls the emitted diagnostics. -/
theorem defuzzify_core_fst_debug (flsets : PyDict FLSet) (flvars : PyDict FLVar)
    (cvar : String) (d : ℤ) :
    (FController.defuzzify_core flsets flvars cvar d).map Prod.fst
    = (FController.defuzzify_core flsets flvars cvar 0).map Prod.fst := by
  unfold FController.defuzzify_core
  rcases dgetE flsets cvar with e1 | fls
  · simp
  simp only [ok_bind]
  rcases dgetE flvars fls.2 with e2 | flv
  · simp
  simp only [ok_bind]
  rcases FController.defuzz_sums fls.1 flv.1 (dkeys flv.1) (0, 0) with e3 | sums
  · simp
  simp only [ok_bind]
  by_cases h0 : sums.2 = 0 <;> simp [h0]

theorem defuzzifyVars_shape (d : ℤ) (ks : List String) (c c2 : FCtrl) (es : List Ev)
    (h : FController.defuzzifyVars d c ks = .ok (c2, es)) :
    ∃ out, c2 = { c with output := out } := by
  induction ks generalizing c es with
  | nil =>
      simp only [FController.defuzzifyVars, Except.ok.injEq, Prod.mk.injEq] at h
      exact ⟨c.output, by rw [← h.1]⟩
  | cons cvar ks ih =>
      simp only [FController.defuzzifyVars] at h
      rcases h1 : FController.defuzzify_var c cvar d with e1 | r <;> rw [h1] at h
      · simp at h
      simp only [ok_bind] at h
      rcases r with ⟨val?, ev⟩
      cases val? with
      | some w =>
          simp only at h
          rcases h2 : FController.defuzzifyVars d { c with output := dset c.output cvar w } ks
            with e2 | r2 <;> rw [h2] at h
          · simp at h
          simp only [ok_bind, pure_eq_ok, Except.ok.injEq, Prod.mk.injEq] at h
          obtain ⟨hl, hr⟩ := h
          subst hl
          obtain ⟨out, hout⟩ := ih _ r2.2 h2
          exact ⟨out, by rw [hout]⟩
      | none =>
          simp only at h
          rcases h2 : FController.defuzzifyVars d c ks with e2 | r2 <;> rw [h2] at h
          · simp at h
          simp only [ok_bind, pure_eq_ok, Except.ok.injEq, Prod.mk.injEq] at h
          obtain ⟨hl, hr⟩ := h
          subst hl
          exact ih _ r2.2 h2

theorem defuzzifyVars_out (d : ℤ) (ks : List String) (c c2 : FCtrl) (es : List Ev)
    (h : FController.defuzzifyVars d c ks = .ok (c2, es)) :
    ∀ k,
      (k ∉ ks → dget c2.output k = dget c.output k)
      ∧ (k ∈ ks →
          (∀ w, (FController.defuzzify_var c k d).map Prod.fst = .ok (some w) →
            dget c2.output k = some w)
          ∧ ((FController.defuzzify_var c k d).map Prod.fst = .ok none →
            dget c2.output k = dget c.output k)) := by
  induction ks generalizing c es with
  | nil =>
      simp only [FController.defuzzifyVars, Except.ok.injEq, Prod.mk.injEq] at h
      obtain ⟨hl, _⟩ := h
      subst hl
      intro k
      exact ⟨fun _ => rfl, fun hk => absurd hk (List.not_mem_nil k)⟩
  | cons cvar ks ih =>
      simp only [FController.defuzzifyVars] at h
      rcases h1 : FController.defuzzify_var c cvar d with e1 | r <;> rw [h1] at h
      · simp at h
      simp only [ok_bind] at h
      rcases r with ⟨val?, ev⟩
      cases val? with
      | some w0 =>
          simp only at h
          rcases h2 : FController.defuzzifyVars d { c with output := dset c.output cvar w0 } ks
            with e2 | r2 <;> rw [h2] at h
          · simp at h
          simp only [ok_bind, pure_eq_ok, Except.ok.injEq, Prod.mk.injEq] at h
          obtain ⟨hl, _⟩ := h
          subst hl
          have hdv : ∀ k dd, FController.defuzzify_var
              { c with output := dset c.output cvar w0 } k dd
              = FController.defuzzify_var c k dd := fun _ _ => rfl
          have spec := ih _ r2.2 h2
          intro k
          constructor
          · intro hk
            have hk1 : k ∉ ks := fun hmem => hk (List.mem_cons_of_mem _ hmem)
            have hkc : k ≠ cvar := fun he => hk (he ▸ List.mem_cons_self cvar ks)
            rw [(spec k).1 hk1]
            exact dget_dset_ne _ _ _ _ hkc
          · intro hk
            constructor
            · intro w hw
              by_cases hmem : k ∈ ks
              · exact ((spec k).2 hmem).1 w (by rw [hdv k d]; exact hw)
              · have hkc : k = cvar := by
                  rcases List.mem_cons.mp hk with he | hmem2
                  · exact he
                  · exact absurd hmem2 hmem
                subst hkc
                rw [h1] at hw
                simp only [map_ok, Except.ok.injEq, Option.some.injEq] at hw
                rw [(spec k).1 hmem]
                show dget (dset c.output k w0) k = some w
                rw [dget_dset_self, hw]
            · intro hw
              by_cases hmem : k ∈ ks
              · have hh := ((spec k).2 hmem).2 (by rw [hdv k d]; exact hw)
                rw [hh]
                by_cases hkc : k = cvar
                · subst hkc
                  rw [h1] at hw
                  simp at hw
                · exact dget_dset_ne _ _ _ _ hkc
              · have hkc : k = cvar := by
                  rcases List.mem_cons.mp hk with he | hmem2
                  · exact he
                  · exact absurd hmem2 hmem
                subst hkc
                rw [h1] at hw
                simp at hw
      | none =>
          simp only at h
          rcases h2 : FController.defuzzifyVars d c ks with e2 | r2 <;> rw [h2] at h
          · simp at h
          simp only [ok_bind, pure_eq_ok, Except.ok.injEq, Prod.mk.injEq] at h
          obtain ⟨hl, _⟩ := h
          subst hl
          have spec := ih _ r2.2 h2
          intro k
          constructor
          · intro hk
            exact (spec k).1 (fun hmem => hk (List.mem_cons_of_mem _ hmem))
          · intro hk
            by_cases hmem : k ∈ ks
            · exact (spec k).2 hmem
            · have hkc : k = cvar := by
                rcases List.mem_cons.mp hk with he | hmem2
                · exact he
                · exact absurd hmem2 hmem
              subst hkc
              constructor
              · intro w hw
                rw [h1] at hw
                simp at hw
              · intro _
                exact (spec k).1 hmem

/-- Whether some linguistic variable of `flvars` targets the control variable
`cvar` (so that `init_flsets` creates an output entry for it). -/
def isTarget (flvars : PyDict FLVar) (cvar : String) : Bool :=
  flvars.any (fun nf => nf.2.2 = cvar)

theorem isTarget_iff (flvars : PyDict FLVar) (cvar : String) :
    isTarget flvars cvar = true ↔ ∃ nf ∈ flvars, nf.2.2 = cvar := by
  simp [isTarget, List.any_eq_true]

/-- C1 (amended): if the total activation of a targeted output variable is
exactly zero in a cycle (i.e. `defuzzify_var` returns `None` for it), the
`defuzzify` step writes nothing for it — but because `eval_frules` re-runs
`init_flsets` every cycle, which resets every targeted output variable to
`0.0`, the variable ends the cycle at `0.0`, not at the previous cycle's
value; every output variable with nonzero activation is written with the
defuzzified value, as the original claim states. -/
theorem C1_amended_zero_activation_resets (upd : PyDict ℚ → PyDict ℚ → PyDict ℚ)
    (c : FCtrl) (ext : PyDict ℚ) (d : ℤ) (v : ℚ) (c' : FCtrl) (evs : List Ev)
    (hrun : FController.run upd c ext d = .ok (v, c', evs))
    (cvar : String) (htgt : isTarget c.flvars cvar = true) :
    ((FController.defuzzify_var c' cvar 0).map Prod.fst = .ok none →
      dget c'.output cvar = some 0)
    ∧ (∀ w, (FController.defuzzify_var c' cvar 0).map Prod.fst = .ok (some w) →
      dget c'.output cvar = some w) := by
  obtain ⟨c1, c2, evs1, evs2, h1, h2, h3, h4⟩ := run_decomp upd c ext d v c' evs hrun
  obtain ⟨fv, hfv⟩ := eval_fpreds_shape _ c1 h1
  obtain ⟨es, hap⟩ := eval_frules_decomp c1 d c2 evs1 h2
  obtain ⟨fl, hfl⟩ := applyRules_shape d (dkeys c1.frules) _ c2 es hap
  have htgt1 : ∃ nf ∈ c1.flvars, nf.2.2 = cvar := by
    have hflv : c1.flvars = c.flvars := by rw [hfv]
    rw [hflv]
    exact (isTarget_iff _ _).mp htgt
  have hout_init : dget (FController.init_flsets c1).output cvar = some 0 :=
    init_fold_output_of_target c1.flvars c1 cvar htgt1
  have hout_c2 : dget c2.output cvar = some 0 := by
    rw [hfl]
    exact hout_init
  have hmem : cvar ∈ dkeys c2.output := mem_dkeys_of_dget hout_c2
  have spec := defuzzifyVars_out d (dkeys c2.output) c2 c' evs2 h3
  obtain ⟨out, hout⟩ := defuzzifyVars_shape d (dkeys c2.output) c2 c' evs2 h3
  have hdv : ∀ dd : ℤ, (FController.defuzzify_var c' cvar dd).map Prod.fst
      = (FController.defuzzify_var c2 cvar dd).map Prod.fst := by
    intro dd
    rw [hout]
    rfl
  have hdbg : (FController.defuzzify_var c2 cvar d).map Prod.fst
      = (FController.defuzzify_var c2 cvar 0).map Prod.fst :=
    defuzzify_core_fst_debug c2.flsets c2.flvars cvar d
  constructor
  · intro hnone
    have hnone2 : (FController.defuzzify_var c2 cvar d).map Prod.fst = .ok none := by
      rw [hdbg, ← hdv 0]
      exact hnone
    have hh := ((spec cvar).2 hmem).2 hnone2
    rw [hh, hout_c2]
  · intro w hsome
    have hsome2 : (FController.defuzzify_var c2 cvar d).map Prod.fst = .ok (some w) := by
      rw [hdbg, ← hdv 0]
      exact hsome
    exact ((spec cvar).2 hmem).1 w hsome2

/-- Witness for `C1_amended_zero_activation_resets`: in the `holdTables`
scenario's second cycle (no rule fires for `Vrot`), the crisp output ends at
`0`, the reset value. -/
theorem C1_amended_zero_activation_resets_witness :
    dget holdCtrl2.output "Vrot" = some 0 :=
  (C1_amended_zero_activation_resets holdUpd holdCtrl1 [("x", 0)] 0 0 holdCtrl2 []
    hold_run2 "Vrot" (by decide)).1 (by with_unfolding_all rfl)

/-! ## Debug levels never change computed values (machinery for C9) -/

theorem fst_eq_ok_extract {α β : Type} (X : Except PyErr (α × β)) (a : α)
    (h : X.map Prod.fst = .ok a) : ∃ b, X = .ok (a, b) := by
  rcases X with e | r
  · simp at h
  · simp only [map_ok, Except.ok.injEq] at h
    exact ⟨r.2, by rw [← h]⟩

theorem fst_eq_error_extract {α β : Type} (X : Except PyErr (α × β)) (e : PyErr)
    (h : X.map Prod.fst = .error e) : X = .error e := by
  rcases X with e' | r
  · simp only [map_error, Except.error.injEq] at h
    rw [h]
  · simp at h

theorem eval_frule_fst_debug (c : FCtrl) (n : String) (d : ℤ) :
    (FController.eval_frule c n d).map Prod.fst
    = (FController.eval_frule c n 0).map Prod.fst := by
  unfold FController.eval_frule
  rcases dgetE c.frules n with e1 | frule
  · simp
  simp only [ok_bind]
  rcases dgetE c.flvars frule.2.1 with e2 | flvar
  · simp
  simp only [ok_bind]
  rcases dgetE c.flsets flvar.2 with e3 | flset
  · simp
  simp only [ok_bind]
  rcases FEval.eval c.fpvals frule.1 with e4 | level
  · simp
  simp only [ok_bind]
  rcases dgetE flset.1 frule.2.2 with e5 | old
  · simp
  simp

theorem applyRules_fst_debug (d : ℤ) (ns : List String) :
    ∀ c, (FController.applyRules d c ns).map Prod.fst
      = (FController.applyRules 0 c ns).map Prod.fst := by
  induction ns with
  | nil => intro c; simp [FController.applyRules]
  | cons n ns ih =>
      intro c
      simp only [FController.applyRules]
      have hf := eval_frule_fst_debug c n d
      rcases h0 : FController.eval_frule c n 0 with e0 | r0
      · rw [fst_eq_error_extract (FController.eval_frule c n d) e0
          (by rw [h0] at hf; simpa using hf)]
        simp
      · obtain ⟨ed, hd⟩ := fst_eq_ok_extract (FController.eval_frule c n d) r0.1
          (by rw [h0] at hf; simpa using hf)
        rw [hd]
        simp only [ok_bind]
        have htail := ih r0.1
        rcases ht0 : FController.applyRules 0 r0.1 ns with et | rt
        · rw [fst_eq_error_extract (FController.applyRules d r0.1 ns) et
            (by rw [ht0] at htail; simpa using htail)]
          simp
        · obtain ⟨est, htd⟩ := fst_eq_ok_extract (FController.applyRules d r0.1 ns) rt.1
            (by rw [ht0] at htail; simpa using htail)
          rw [htd]
          simp

theorem defuzzifyVars_fst_debug (d : ℤ) (ks : List String) :
    ∀ c, (FController.defuzzifyVars d c ks).map Prod.fst
      = (FController.defuzzifyVars 0 c ks).map Prod.fst := by
  induction ks with
  | nil => intro c; simp [FController.defuzzifyVars]
  | cons cvar ks ih =>
      intro c
      simp only [FController.defuzzifyVars]
      have hf : (FController.defuzzify_var c cvar d).map Prod.fst
          = (FController.defuzzify_var c cvar 0).map Prod.fst :=
        defuzzify_core_fst_debug c.flsets c.flvars cvar d
      rcases h0 : FController.defuzzify_var c cvar 0 with e0 | r0
      · rw [fst_eq_error_extract (FController.defuzzify_var c cvar d) e0
          (by rw [h0] at hf; simpa using hf)]
        simp
      · obtain ⟨ed, hd⟩ := fst_eq_ok_extract (FController.defuzzify_var c cvar d) r0.1
          (by rw [h0] at hf; simpa using hf)
        rw [hd]
        simp only [ok_bind]
        rcases r0 with ⟨val?, ev0⟩
        cases val? with
        | some w =>
            simp only
            have htail := ih { c with output := dset c.output cvar w }
            rcases ht0 : FController.defuzzifyVars 0 { c with output := dset c.output cvar w } ks
              with et | rt
            · rw [fst_eq_error_extract
                (FController.defuzzifyVars d { c with output := dset c.output cvar w } ks) et
                (by rw [ht0] at htail; simpa using htail)]
              simp
            · obtain ⟨est, htd⟩ := fst_eq_ok_extract
                (FController.defuzzifyVars d { c with output := dset c.output cvar w } ks) rt.1
                (by rw [ht0] at htail; simpa using htail)
              rw [htd]
              simp
        | none =>
            simp only
            have htail := ih c
            rcases ht0 : FController.defuzzifyVars 0 c ks with et | rt
            · rw [fst_eq_error_extract (FController.defuzzifyVars d c ks) et
                (by rw [ht0] at htail; simpa using htail)]
              simp
            · obtain ⟨est, htd⟩ := fst_eq_ok_extract (FController.defuzzifyVars d c ks) rt.1
                (by rw [ht0] at htail; simpa using htail)
              rw [htd]
              simp

theorem defuzzify_fst_debug (c : FCtrl) (d1 d2 : ℤ) :
    (FController.defuzzify c d1).map Prod.fst = (FController.defuzzify c d2).map Prod.fst := by
  unfold FController.defuzzify
  rw [defuzzifyVars_fst_debug d1 (dkeys c.output) c, defuzzifyVars_fst_debug d2 (dkeys c.output) c]

theorem eval_fpred_fpvals (c : FCtrl) (fv : PyDict ℚ) (p : String) :
    FController.eval_fpred { c with fpvals := fv } p = FController.eval_fpred c p := rfl

theorem eval_fpreds_loop_ok_preds (ps : List String) (c c1 : FCtrl)
    (h : FController.eval_fpreds_loop c ps = .ok c1) :
    ∀ p ∈ ps, ∃ w, FController.eval_fpred c p = .ok w := by
  induction ps generalizing c with
  | nil => intro p hp; exact absurd hp (List.not_mem_nil p)
  | cons p ps ih =>
      simp only [FController.eval_fpreds_loop] at h
      rcases h1 : FController.eval_fpred c p with e1 | v <;> rw [h1] at h
      · simp at h
      simp only [ok_bind] at h
      intro p' hp'
      rcases List.mem_cons.mp hp' with rfl | hmem
      · exact ⟨v, h1⟩
      · have := ih _ h p' hmem
        rwa [eval_fpred_fpvals] at this

theorem print_fpreds_loop_ok (c : FCtrl) (ps : List String)
    (h : ∀ p ∈ ps, ∃ w, FController.eval_fpred c p = .ok w) :
    ∃ evs, FController.print_fpreds_loop c ps = .ok evs := by
  induction ps with
  | nil => exact ⟨[], rfl⟩
  | cons p ps ih =>
      obtain ⟨w, hw⟩ := h p (List.mem_cons_self p ps)
      obtain ⟨evs, hevs⟩ := ih (fun p' hp' => h p' (List.mem_cons_of_mem _ hp'))
      refine ⟨Ev.fpredVal p w :: evs, ?_⟩
      simp only [FController.print_fpreds_loop, hw, hevs, ok_bind, pure_eq_ok]

theorem print_fpreds_ok_after_eval (c0 c1 : FCtrl)
    (h : FController.eval_fpreds c0 = .ok c1) :
    ∃ evs, FController.print_fpreds c1 = .ok evs := by
  obtain ⟨fv, hfv⟩ := eval_fpreds_shape c0 c1 h
  have hpred : ∀ p ∈ dkeys c0.fpreds, ∃ w, FController.eval_fpred c0 p = .ok w :=
    eval_fpreds_loop_ok_preds _ c0 c1 h
  have hpred1 : ∀ p ∈ dkeys c1.fpreds, ∃ w, FController.eval_fpred c1 p = .ok w := by
    intro p hp
    rw [hfv] at hp ⊢
    rw [eval_fpred_fpvals]
    exact hpred p hp
  obtain ⟨evs, hevs⟩ := print_fpreds_loop_ok c1 (dkeys c1.fpreds) hpred1
  exact ⟨Ev.fpredsHeader :: evs, by simp only [FController.print_fpreds, hevs, ok_bind, pure_eq_ok]⟩

theorem eval_frules_fst_debug (c : FCtrl) (d1 d2 : ℤ)
    (hp : ∃ evs, FController.print_fpreds c = .ok evs) :
    (FController.eval_frules c d1).map Prod.fst
    = (FController.eval_frules c d2).map Prod.fst := by
  obtain ⟨evs0, hp⟩ := hp
  have key : ∀ dx : ℤ, (FController.eval_frules c dx).map Prod.fst
      = (FController.applyRules dx (FController.init_flsets c) (dkeys c.frules)).map Prod.fst := by
    intro dx
    unfold FController.eval_frules FController.eval_frules_with
    by_cases hdx : dx > 0
    · rw [if_pos hdx, hp]
      simp only [ok_bind]
      rcases FController.applyRules dx (FController.init_flsets c) (dkeys c.frules)
        with e | r <;> simp
    · rw [if_neg hdx]
      simp only [pure_eq_ok, ok_bind]
      rcases FController.applyRules dx (FController.init_flsets c) (dkeys c.frules)
        with e | r <;> simp
  rw [key d1, key d2, applyRules_fst_debug d1 (dkeys c.frules) _,
    applyRules_fst_debug d2 (dkeys c.frules) _]

/-- C9: running one control cycle with any two verbosity levels yields
identical numeric results — the same returned achievement value and the same
controller state (in particular the same crisp output values); the debug level
only changes the emitted diagnostics, which are dropped here by the
projection. -/
theorem C9_debug_level_immaterial (upd : PyDict ℚ → PyDict ℚ → PyDict ℚ)
    (c : FCtrl) (ext : PyDict ℚ) (d1 d2 : ℤ) :
    (FController.run upd c ext d1).map (fun r => (r.1, r.2.1))
    = (FController.run upd c ext d2).map (fun r => (r.1, r.2.1)) := by
  simp only [FController.run]
  rcases h1 : FController.eval_fpreds { c with state := upd ext c.state } with e1 | c1
  · simp
  simp only [ok_bind]
  have hfr := eval_frules_fst_debug c1 d1 d2 (print_fpreds_ok_after_eval _ c1 h1)
  rcases h2 : FController.eval_frules c1 d2 with e2 | r2
  · rw [fst_eq_error_extract (FController.eval_frules c1 d1) e2
      (by rw [h2] at hfr; simpa using hfr)]
    simp
  obtain ⟨es1, h2'⟩ := fst_eq_ok_extract (FController.eval_frules c1 d1) r2.1
    (by rw [h2] at hfr; simpa using hfr)
  rw [h2']
  simp only [ok_bind]
  have hdf := defuzzify_fst_debug r2.1 d1 d2
  rcases h3 : FController.defuzzify r2.1 d2 with e3 | r3
  · rw [fst_eq_error_extract (FController.defuzzify r2.1 d1) e3
      (by rw [h3] at hdf; simpa using hdf)]
    simp
  obtain ⟨es2, h3'⟩ := fst_eq_ok_extract (FController.defuzzify r2.1 d1) r3.1
    (by rw [h3] at hdf; simpa using hdf)
  rw [h3']
  simp only [ok_bind]
  rcases h4 : FController.eval_goal r3.1 with e4 | v
  · simp
  · simp

/-! ## Rule evaluation order (machinery for C8) -/

/-- Whether an `Except` result is a success. -/
def isOkE {α : Type} : Except PyErr α → Bool
  | .ok _ => true
  | .error _ => false

theorem dgetE_ok_iff {α : Type} (d : PyDict α) (k : String) (v : α) :
    dgetE d k = .ok v ↔ dget d k = some v := by
  unfold dgetE
  rcases h : dget d k with _ | w <;> simp

/-- All the lookups of `eval_frule` for rule `n` succeed on controller state
`c` (so evaluating the rule cannot raise). -/
def ruleOk (c : FCtrl) (n : String) : Bool :=
  isOkE (do
    let frule ← dgetE c.frules n
    let flvar ← dgetE c.flvars frule.2.1
    let flset ← dgetE c.flsets flvar.2
    let _level ← FEval.eval c.fpvals frule.1
    let _old ← dgetE flset.1 frule.2.2
    pure ())

/-- The state change of a successful `eval_frule`: aggregate the rule's firing
level into its target label with `max`. -/
def ruleStep (c : FCtrl) (n : String) : FCtrl :=
  match dget c.frules n with
  | none => c
  | some frule =>
    match dget c.flvars frule.2.1 with
    | none => c
    | some flvar =>
      match dget c.flsets flvar.2 with
      | none => c
      | some flset =>
        match FEval.eval c.fpvals frule.1 with
        | .error _ => c
        | .ok level =>
          match dget flset.1 frule.2.2 with
          | none => c
          | some old =>
            { c with flsets := (dset c.flsets flvar.2
                (dset flset.1 frule.2.2 (pymax old level), flset.2)) }

theorem ruleOk_elim (c : FCtrl) (n : String) (h : ruleOk c n = true) :
    ∃ fr flv fls lev old,
      dget c.frules n = some (fr : FRule)
      ∧ dget c.flvars fr.2.1 = some (flv : FLVar)
      ∧ dget c.flsets flv.2 = some (fls : FLSet)
      ∧ FEval.eval c.fpvals fr.1 = .ok (lev : ℚ)
      ∧ dget fls.1 fr.2.2 = some (old : ℚ) := by
  unfold ruleOk at h
  rcases h1 : dgetE c.frules n with e1 | fr <;> rw [h1] at h
  · simp [isOkE] at h
  simp only [ok_bind] at h
  rcases h2 : dgetE c.flvars fr.2.1 with e2 | flv <;> rw [h2] at h
  · simp [isOkE] at h
  simp only [ok_bind] at h
  rcases h3 : dgetE c.flsets flv.2 with e3 | fls <;> rw [h3] at h
  · simp [isOkE] at h
  simp only [ok_bind] at h
  rcases h4 : FEval.eval c.fpvals fr.1 with e4 | lev <;> rw [h4] at h
  · simp [isOkE] at h
  simp only [ok_bind] at h
  rcases h5 : dgetE fls.1 fr.2.2 with e5 | old <;> rw [h5] at h
  · simp [isOkE] at h
  exact ⟨fr, flv, fls, lev, old, (dgetE_ok_iff _ _ _).mp h1, (dgetE_ok_iff _ _ _).mp h2,
    (dgetE_ok_iff _ _ _).mp h3, h4, (dgetE_ok_iff _ _ _).mp h5⟩

theorem ruleStep_of (c : FCtrl) (n : String) (fr : FRule) (flv : FLVar) (fls : FLSet)
    (lev old : ℚ)
    (h1 : dget c.frules n = some fr) (h2 : dget c.flvars fr.2.1 = some flv)
    (h3 : dget c.flsets flv.2 = some fls) (h4 : FEval.eval c.fpvals fr.1 = .ok lev)
    (h5 : dget fls.1 fr.2.2 = some old) :
    ruleStep c n = { c with flsets := (dset c.flsets flv.2
      (dset fls.1 fr.2.2 (pymax old lev), fls.2)) } := by
  unfold ruleStep
  simp only [h1, h2, h3, h4, h5]

theorem eval_frule_eq_of (c : FCtrl) (n : String) (d : ℤ) (fr : FRule) (flv : FLVar)
    (fls : FLSet) (lev old : ℚ)
    (h1 : dget c.frules n = some fr) (h2 : dget c.flvars fr.2.1 = some flv)
    (h3 : dget c.flsets flv.2 = some fls) (h4 : FEval.eval c.fpvals fr.1 = .ok lev)
    (h5 : dget fls.1 fr.2.2 = some old) :
    FController.eval_frule c n d
      = .ok ({ c with flsets := (dset c.flsets flv.2
          (dset fls.1 fr.2.2 (pymax old lev), fls.2)) },
        if d > 0 then [Ev.ruleFired n lev] else []) := by
  have g1 : dgetE c.frules n = .ok fr := (dgetE_ok_iff _ _ _).mpr h1
  have g2 : dgetE c.flvars fr.2.1 = .ok flv := (dgetE_ok_iff _ _ _).mpr h2
  have g3 : dgetE c.flsets flv.2 = .ok fls := (dgetE_ok_iff _ _ _).mpr h3
  have g5 : dgetE fls.1 fr.2.2 = .ok old := (dgetE_ok_iff _ _ _).mpr h5
  unfold FController.eval_frule
  simp only [g1, g2, g3, h4, g5, ok_bind, pure_eq_ok]

theorem eval_frule_ruleStep (c : FCtrl) (n : String) (d : ℤ) (h : ruleOk c n = true) :
    ∃ e, FController.eval_frule c n d = .ok (ruleStep c n, e) := by
  obtain ⟨fr, flv, fls, lev, old, h1, h2, h3, h4, h5⟩ := ruleOk_elim c n h
  refine ⟨if d > 0 then [Ev.ruleFired n lev] else [], ?_⟩
  rw [eval_frule_eq_of c n d fr flv fls lev old h1 h2 h3 h4 h5,
    ruleStep_of c n fr flv fls lev old h1 h2 h3 h4 h5]

theorem ruleOk_step_invariant (c : FCtrl) (n : String) (hn : ruleOk c n = true)
    (m : String) : ruleOk (ruleStep c n) m = ruleOk c m := by
  obtain ⟨fr, flv, fls, lev, old, h1, h2, h3, h4, h5⟩ := ruleOk_elim c n hn
  rw [ruleStep_of c n fr flv fls lev old h1 h2 h3 h4 h5]
  unfold ruleOk
  dsimp only
  rcases hm1 : dgetE c.frules m with e1 | frm
  · simp [isOkE]
  simp only [ok_bind]
  rcases hm2 : dgetE c.flvars frm.2.1 with e2 | flvm
  · simp [isOkE]
  simp only [ok_bind]
  by_cases hcv : flvm.2 = flv.2
  · have l1 : dgetE (dset c.flsets flv.2 (dset fls.1 fr.2.2 (pymax old lev), fls.2)) flvm.2
        = .ok (dset fls.1 fr.2.2 (pymax old lev), fls.2) := by
      rw [hcv]
      exact (dgetE_ok_iff _ _ _).mpr (dget_dset_self _ _ _)
    have l2 : dgetE c.flsets flvm.2 = .ok fls := by
      rw [hcv]
      exact (dgetE_ok_iff _ _ _).mpr h3
    rw [l1, l2]
    simp only [ok_bind]
    rcases hev : FEval.eval c.fpvals frm.1 with e4 | levm
    · simp [isOkE]
    simp only [ok_bind]
    by_cases hl : frm.2.2 = fr.2.2
    · have r1 : dgetE (dset fls.1 fr.2.2 (pymax old lev)) frm.2.2
          = .ok (pymax old lev) := by
        rw [hl]
        exact (dgetE_ok_iff _ _ _).mpr (dget_dset_self _ _ _)
      have r2 : dgetE fls.1 frm.2.2 = .ok old := by
        rw [hl]
        exact (dgetE_ok_iff _ _ _).mpr h5
      rw [r1, r2]
      rfl
    · have r1 : dgetE (dset fls.1 fr.2.2 (pymax old lev)) frm.2.2
          = dgetE fls.1 frm.2.2 := by
        unfold dgetE
        rw [dget_dset_ne _ _ _ _ hl]
      rw [r1]
  · have l1 : dgetE (dset c.flsets flv.2 (dset fls.1 fr.2.2 (pymax old lev), fls.2)) flvm.2
        = dgetE c.flsets flvm.2 := by
      unfold dgetE
      rw [dget_dset_ne _ _ _ _ hcv]
    rw [l1]

theorem ruleStep_of_upd (c : FCtrl) (F : PyDict FLSet) (n : String) (fr : FRule)
    (flv : FLVar) (fls : FLSet) (lev old : ℚ)
    (h1 : dget c.frules n = some fr) (h2 : dget c.flvars fr.2.1 = some flv)
    (h3 : dget F flv.2 = some fls) (h4 : FEval.eval c.fpvals fr.1 = .ok lev)
    (h5 : dget fls.1 fr.2.2 = some old) :
    ruleStep { c with flsets := F } n = { c with flsets := (dset F flv.2
      (dset fls.1 fr.2.2 (pymax old lev), fls.2)) } :=
  ruleStep_of { c with flsets := F } n fr flv fls lev old h1 h2 h3 h4 h5

theorem ruleStep_comm (c : FCtrl) (x y : String)
    (hx : ruleOk c x = true) (hy : ruleOk c y = true) :
    ruleStep (ruleStep c x) y = ruleStep (ruleStep c y) x := by
  obtain ⟨frx, flvx, flsx, levx, oldx, hx1, hx2, hx3, hx4, hx5⟩ := ruleOk_elim c x hx
  obtain ⟨fry, flvy, flsy, levy, oldy, hy1, hy2, hy3, hy4, hy5⟩ := ruleOk_elim c y hy
  have hcx : ruleStep c x = { c with flsets := (dset c.flsets flvx.2
      (dset flsx.1 frx.2.2 (pymax oldx levx), flsx.2)) } :=
    ruleStep_of c x frx flvx flsx levx oldx hx1 hx2 hx3 hx4 hx5
  have hcy : ruleStep c y = { c with flsets := (dset c.flsets flvy.2
      (dset flsy.1 fry.2.2 (pymax oldy levy), flsy.2)) } :=
    ruleStep_of c y fry flvy flsy levy oldy hy1 hy2 hy3 hy4 hy5
  by_cases hcv : flvy.2 = flvx.2
  · -- same control variable: the two rules update the same fuzzy set
    have hfls : flsy = flsx := by
      rw [hcv] at hy3
      rw [hy3] at hx3
      exact ((Option.some.injEq _ _).mp hx3.symm).symm
    by_cases hl : fry.2.2 = frx.2.2
    · -- same label: max-aggregation commutes
      have holds : oldy = oldx := by
        rw [hfls, hl] at hy5
        rw [hy5] at hx5
        exact ((Option.some.injEq _ _).mp hx5.symm).symm
      have hs1 : ruleStep (ruleStep c x) y = { c with flsets := (dset c.flsets flvx.2
          (dset flsx.1 frx.2.2 (pymax (pymax oldx levx) levy), flsx.2)) } := by
        rw [hcx, ruleStep_of_upd c _ y fry flvy
          (dset flsx.1 frx.2.2 (pymax oldx levx), flsx.2) levy (pymax oldx levx)
          hy1 hy2 (by rw [hcv]; exact dget_dset_self _ _ _) hy4
          (by show dget (dset flsx.1 frx.2.2 (pymax oldx levx)) fry.2.2 = _
              rw [hl]; exact dget_dset_self _ _ _)]
        rw [hcv]
        show { c with flsets := (dset (dset c.flsets flvx.2 _) flvx.2
          (dset (dset flsx.1 frx.2.2 (pymax oldx levx)) fry.2.2 (pymax (pymax oldx levx) levy),
            flsx.2)) } = _
        rw [dset_dset_self, hl, dset_dset_self]
      have hs2 : ruleStep (ruleStep c y) x = { c with flsets := (dset c.flsets flvx.2
          (dset flsx.1 frx.2.2 (pymax (pymax oldx levy) levx), flsx.2)) } := by
        rw [hcy, ruleStep_of_upd c _ x frx flvx
          (dset flsy.1 fry.2.2 (pymax oldy levy), flsy.2) levx (pymax oldy levy)
          hx1 hx2 (by rw [← hcv]; exact dget_dset_self _ _ _) hx4
          (by show dget (dset flsy.1 fry.2.2 (pymax oldy levy)) frx.2.2 = _
              rw [← hl]; exact dget_dset_self _ _ _)]
        rw [← hcv]
        show { c with flsets := (dset (dset c.flsets flvy.2 _) flvy.2
          (dset (dset flsy.1 fry.2.2 (pymax oldy levy)) frx.2.2 (pymax (pymax oldy levy) levx),
            flsy.2)) } = _
        rw [dset_dset_self, ← hl, dset_dset_self, hfls, holds, hcv, hl]
      rw [hs1, hs2]
      have hmax : pymax (pymax oldx levx) levy = pymax (pymax oldx levy) levx := by
        simp only [pymax_eq_max]
        rw [max_assoc, max_comm levx levy, ← max_assoc]
      rw [hmax]
    · -- same control variable, distinct labels: inner updates commute
      have holdy1 : dget (dset flsx.1 frx.2.2 (pymax oldx levx)) fry.2.2 = some oldy := by
        rw [dget_dset_ne _ _ _ _ hl, ← hfls]
        exact hy5
      have holdx1 : dget (dset flsy.1 fry.2.2 (pymax oldy levy)) frx.2.2 = some oldx := by
        rw [dget_dset_ne _ _ _ _ (fun he => hl he.symm), hfls]
        exact hx5
      have hs1 : ruleStep (ruleStep c x) y = { c with flsets := (dset c.flsets flvx.2
          (dset (dset flsx.1 frx.2.2 (pymax oldx levx)) fry.2.2 (pymax oldy levy),
            flsx.2)) } := by
        rw [hcx, ruleStep_of_upd c _ y fry flvy
          (dset flsx.1 frx.2.2 (pymax oldx levx), flsx.2) levy oldy
          hy1 hy2 (by rw [hcv]; exact dget_dset_self _ _ _) hy4 holdy1]
        rw [hcv]
        show { c with flsets := (dset (dset c.flsets flvx.2 _) flvx.2 _) } = _
        rw [dset_dset_self]
      have hs2 : ruleStep (ruleStep c y) x = { c with flsets := (dset c.flsets flvx.2
          (dset (dset flsy.1 fry.2.2 (pymax oldy levy)) frx.2.2 (pymax oldx levx),
            flsy.2)) } := by
        rw [hcy, ruleStep_of_upd c _ x frx flvx
          (dset flsy.1 fry.2.2 (pymax oldy levy), flsy.2) levx oldx
          hx1 hx2 (by rw [← hcv]; exact dget_dset_self _ _ _) hx4 holdx1]
        rw [← hcv]
        show { c with flsets := (dset (dset c.flsets flvy.2 _) flvy.2 _) } = _
        rw [dset_dset_self, hcv]
      rw [hs1, hs2, hfls]
      have hin : dset (dset flsx.1 frx.2.2 (pymax oldx levx)) fry.2.2 (pymax oldy levy)
          = dset (dset flsx.1 fry.2.2 (pymax oldy levy)) frx.2.2 (pymax oldx levx) :=
        dset_dset_of_ne flsx.1 frx.2.2 fry.2.2 _ _ (fun he => hl he.symm)
          (mem_dkeys_of_dget hx5)
      rw [hin]
  · -- distinct control variables: outer updates commute
    have hflsy1 : dget (dset c.flsets flvx.2
        (dset flsx.1 frx.2.2 (pymax oldx levx), flsx.2)) flvy.2 = some flsy := by
      rw [dget_dset_ne _ _ _ _ hcv]
      exact hy3
    have hflsx1 : dget (dset c.flsets flvy.2
        (dset flsy.1 fry.2.2 (pymax oldy levy), flsy.2)) flvx.2 = some flsx := by
      rw [dget_dset_ne _ _ _ _ (fun he => hcv he.symm)]
      exact hx3
    have hs1 : ruleStep (ruleStep c x) y = { c with flsets :=
        (dset (dset c.flsets flvx.2 (dset flsx.1 frx.2.2 (pymax oldx levx), flsx.2))
          flvy.2 (dset flsy.1 fry.2.2 (pymax oldy levy), flsy.2)) } := by
      rw [hcx, ruleStep_of_upd c _ y fry flvy flsy levy oldy hy1 hy2 hflsy1 hy4 hy5]
    have hs2 : ruleStep (ruleStep c y) x = { c with flsets :=
        (dset (dset c.flsets flvy.2 (dset flsy.1 fry.2.2 (pymax oldy levy), flsy.2))
          flvx.2 (dset flsx.1 frx.2.2 (pymax oldx levx), flsx.2)) } := by
      rw [hcy, ruleStep_of_upd c _ x frx flvx flsx levx oldx hx1 hx2 hflsx1 hx4 hx5]
    rw [hs1, hs2]
    have hout := dset_dset_of_ne c.flsets flvx.2 flvy.2
      (dset flsx.1 frx.2.2 (pymax oldx levx), flsx.2)
      (dset flsy.1 fry.2.2 (pymax oldy levy), flsy.2)
      (fun he => hcv he.symm) (mem_dkeys_of_dget hx3)
    rw [hout]

theorem applyRules_eq_foldl (d : ℤ) (ns : List String) :
    ∀ c, (∀ n ∈ ns, ruleOk c n = true) →
    (FController.applyRules d c ns).map Prod.fst = .ok (ns.foldl ruleStep c) := by
  induction ns with
  | nil => intro c _; simp [FController.applyRules]
  | cons n ns ih =>
      intro c h
      obtain ⟨e, he⟩ := eval_frule_ruleStep c n d (h n (List.mem_cons_self n ns))
      simp only [FController.applyRules, he, ok_bind, List.foldl_cons]
      have hok' : ∀ m ∈ ns, ruleOk (ruleStep c n) m = true := fun m hm => by
        rw [ruleOk_step_invariant c n (h n (List.mem_cons_self n ns)) m]
        exact h m (List.mem_cons_of_mem _ hm)
      have ihs := ih (ruleStep c n) hok'
      rcases ht : FController.applyRules d (ruleStep c n) ns with et | rt
      · rw [ht] at ihs
        simp at ihs
      · rw [ht] at ihs
        simp only [map_ok, Except.ok.injEq] at ihs
        simp only [ok_bind, pure_eq_ok, map_ok, Except.ok.injEq]
        exact ihs

theorem foldl_ruleStep_perm {ns1 ns2 : List String} (p : ns1.Perm ns2) :
    ∀ c, (∀ n ∈ ns1, ruleOk c n = true) →
    ns1.foldl ruleStep c = ns2.foldl ruleStep c := by
  induction p with
  | nil => intro c _; rfl
  | cons x p ih =>
      intro c h
      simp only [List.foldl_cons]
      exact ih (ruleStep c x) (fun n hn => by
        rw [ruleOk_step_invariant c x (h x (List.mem_cons_self x _)) n]
        exact h n (List.mem_cons_of_mem _ hn))
  | swap x y l =>
      intro c h
      simp only [List.foldl_cons]
      rw [ruleStep_comm c y x (h y (List.mem_cons_self y _))
        (h x (List.mem_cons_of_mem _ (List.mem_cons_self x _)))]
  | trans p1 p2 ih1 ih2 =>
      intro c h
      rw [ih1 c h]
      exact ih2 c (fun n hn => h n (p1.mem_iff.mpr hn))

/-- C8: with a fixed truth-value interpretation, the fuzzy output sets
produced by the rule-evaluation step (`init_flsets` reset exactly once,
followed by max-aggregation of every rule) are identical for every evaluation
order of the rules — permuting the rule list leaves the resulting controller
state unchanged.  The hypothesis `ruleOk` states that each rule's lookups and
antecedent evaluation succeed (with rules that raise exceptions, the order
would decide only which exception surfaces first). -/
theorem C8_rule_order_immaterial (c : FCtrl) (ns1 ns2 : List String) (d : ℤ)
    (hperm : ns1.Perm ns2)
    (hok : ∀ n ∈ ns1, ruleOk (FController.init_flsets c) n = true) :
    (FController.eval_frules_with c ns1 d).map Prod.fst
    = (FController.eval_frules_with c ns2 d).map Prod.fst := by
  have h1 := applyRules_eq_foldl d ns1 (FController.init_flsets c) hok
  have h2 := applyRules_eq_foldl d ns2 (FController.init_flsets c)
    (fun n hn => hok n (hperm.mem_iff.mpr hn))
  have hfold := foldl_ruleStep_perm hperm (FController.init_flsets c) hok
  obtain ⟨es1, he1⟩ := fst_eq_ok_extract _ _ h1
  obtain ⟨es2, he2⟩ := fst_eq_ok_extract _ _ h2
  unfold FController.eval_frules_with
  by_cases hd : d > 0
  · rw [if_pos hd, if_pos hd]
    rcases hp : FController.print_fpreds c with e | evs0
    · simp [hd]
    simp only [ok_bind, he1, he2]
    simp [hfold, hd]
  · rw [if_neg hd, if_neg hd]
    simp only [pure_eq_ok, ok_bind, he1, he2]
    simp [hfold, hd]

set_option maxHeartbeats 1000000 in
/-- Witness for `C8_rule_order_immaterial`: evaluating the four `GoToTarget`
rules in reverse order yields the same fuzzy output sets. -/
theorem C8_rule_order_immaterial_witness :
    (FController.eval_frules_with cGoToA ["ToLeft", "ToRight", "Far", "Stop"] 0).map Prod.fst
    = (FController.eval_frules_with cGoToA ["Stop", "Far", "ToRight", "ToLeft"] 0).map Prod.fst :=
  C8_rule_order_immaterial cGoToA _ _ 0 (by decide)
    (by intro n hn; fin_cases hn <;> with_unfolding_all rfl)
